import Mathlib

/-!
# CachePool: buffers and the segregated-class buffer pool

A shallow embedding of `golang/mem/buf.go` and `golang/mem/buf_pool.go`.

Conventions of the embedding.

* A Go `int` is an `Int`.  The heads, lengths and capacities of buffers are
  bounded by the size of a memory region, so `int` arithmetic on them is
  taken without wrap-around.  The usage counter `TotalMem` is a `uint64`;
  it is a `Nat` and every operation on it is reduced modulo `2 ^ 64`.
* A pointer into C memory is a base region together with a signed byte
  offset.  The region is the map from offsets (relative to the base
  address) to bytes; the nil pointer is `none`.  Memory is flat: the
  primitives address any offset, as the C functions do, and nothing here
  tracks the end of the allocated block.
* A `*Buf` that may be nil is an `Option Buf`; the `Next` links of a free
  list make `Buf` a recursive record.  Buffers are then values: `Revert`
  puts a copy of its argument in front of the list.  That is what the source
  does whenever the buffer handed to `Revert` is not already in the list.
  A buffer that is in the list (one returned twice, say) is the same record
  as a member of the list, and line 178 then writes the `Next` of that
  member.  The section "The pool with addresses" (namespace `ptr`) keeps
  the addresses of the records and is the model for what depends on this.
* `sync.RWMutex` is a flag (`true` = held).  A call that reaches `Lock()`
  while the flag is set never returns; such a call has result `none`.
-/

namespace mem

/-- Contents of C memory around a base address: the byte at each offset. -/
abbrev Mem := Int → UInt8

/-- Record `Buf` of `buf.go`. -/
structure Buf where
  Next : Option Buf
  Capacity : Int
  length : Int
  head : Int
  data : Option Mem

/-- Modelled from the spec: `c.Malloc` of the package `cachepool/c`, which is
not among the sources.  "allocates `size` bytes": the result is a region
that is not nil.  The bytes of fresh memory are unspecified; they are fixed
to zero here and no statement below depends on their value. -/
def c.Malloc (_size : Int) : Option Mem :=
  some (fun _ => 0)

/-- Modelled from the spec: `c.Memcpy(dest, src, length)` of the package
`cachepool/c`, which is not among the sources.  "copies `bytes` starting at"
the destination: byte `i` of `src` lands at offset `off + i` for
`0 <= i < length`, every other byte keeps its value.  The destination
pointer is the pair `(dest, off)`. -/
def c.Memcpy (dest : Option Mem) (off : Int) (src : List UInt8) (length : Int) : Option Mem :=
  dest.map fun m a =>
    if off ≤ a ∧ a < off + length then src.getD (a - off).toNat 0 else m a

/-- Modelled from the spec: `c.Memmove(dest, src, length)` of the package
`cachepool/c`, which is not among the sources.  "an overlap-safe move": the
`length` bytes at offsets `srcOff ..` of the old contents land at offsets
`dstOff ..`.  Both pointers lie in the same region. -/
def c.Memmove (region : Option Mem) (dstOff srcOff : Int) (length : Int) : Option Mem :=
  region.map fun m a =>
    if dstOff ≤ a ∧ a < dstOff + length then m (srcOff + (a - dstOff)) else m a

/-- The cgo helper `C.GoBytes(p, n)`: a copy of the `n` bytes at pointer
`(region, off)`.  A nil pointer yields no bytes. -/
def GoBytes (region : Option Mem) (off : Int) (n : Int) : List UInt8 :=
  match region with
  | none => []
  | some m => (List.range n.toNat).map fun (i : Nat) => m (off + (i : Int))

/-- `NewBuf`, buf.go lines 27-35. -/
def NewBuf (size : Int) : Buf :=
  { Capacity := size, length := 0, head := 0, Next := none, data := c.Malloc size }

/-- `Buf.GetBytes`, buf.go lines 38-41. -/
def Buf.GetBytes (b : Buf) : List UInt8 :=
  GoBytes b.data b.head b.length

/-- `Buf.SetBytes`, buf.go lines 44-47: the copy goes to `data + head`. -/
def Buf.SetBytes (b : Buf) (src : List UInt8) : Buf :=
  { b with
    data := c.Memcpy b.data b.head src (src.length : Int)
    length := b.length + (src.length : Int) }

/-- `Buf.Copy`, buf.go lines 50-54. -/
def Buf.Copy (b other : Buf) : Buf :=
  { b with
    data := c.Memcpy b.data 0 other.GetBytes other.length
    head := 0
    length := other.length }

/-- `Buf.Pop`, buf.go lines 57-68.  Both guards return without a change. -/
def Buf.Pop (b : Buf) (len : Int) : Buf :=
  if b.data.isNone then b
  else if len > b.length then b
  else { b with length := b.length - len, head := b.head + len }

/-- `Buf.Adjust`, buf.go lines 71-78. -/
def Buf.Adjust (b : Buf) : Buf :=
  if b.head ≠ 0 then
    if b.length ≠ 0 then
      { b with data := c.Memmove b.data 0 b.head b.length, head := 0 }
    else { b with head := 0 }
  else b

/-- `Buf.Clear`, buf.go lines 81-84. -/
def Buf.Clear (b : Buf) : Buf :=
  { b with length := 0, head := 0 }

/-- `Buf.Head`, buf.go lines 87-89. -/
def Buf.Head (b : Buf) : Int := b.head

/-- `Buf.Length`, buf.go lines 91-93. -/
def Buf.Length (b : Buf) : Int := b.length

/-- The bytes of "Aceld12345", the string written by the tests of buf_test.go. -/
def aceld : List UInt8 := [65, 99, 101, 108, 100, 49, 50, 51, 52, 53]

/-- Conversion `uint64(x)` of a Go `int`. -/
def uint64 (x : Int) : Nat := (x % 2 ^ 64).toNat

/-- The limit of the pool in KB, buf_pool.go lines 27-30. -/
def EXTRA_MEM_LIMIT : Int := 5 * 1024 * 1024

/-- Size classes, buf_pool.go lines 47-55. -/
def m4K : Int := 4096
/-- Size class, buf_pool.go line 49. -/
def m16K : Int := 16384
/-- Size class, buf_pool.go line 50. -/
def m64K : Int := 655535
/-- Size class, buf_pool.go line 51. -/
def m256K : Int := 262144
/-- Size class, buf_pool.go line 52. -/
def m1M : Int := 1048576
/-- Size class, buf_pool.go line 53. -/
def m4M : Int := 4194304
/-- Size class, buf_pool.go line 54. -/
def m8M : Int := 8388608

/-- Type `Pool`, buf_pool.go line 10, a `map[int]*Buf`: `none` is an absent
key, `some none` a key whose value is nil, `some (some b)` a key whose value
points to `b`. -/
abbrev Pool := Int → Option (Option Buf)

/-- Map read `p[k]`: the zero value nil for an absent key. -/
def Pool.get (p : Pool) (k : Int) : Option Buf :=
  match p k with
  | some v => v
  | none => none

/-- Map write `p[k] = v`. -/
def Pool.set (p : Pool) (k : Int) (v : Option Buf) : Pool :=
  fun j => if j = k then some v else p j

/-- Record `BufPool`, buf_pool.go lines 13-21.  The field `prev` is never
read and is left out. -/
structure BufPool where
  Pool : Pool
  PoolLock : Bool
  TotalMem : Nat

/-- `PoolLock.Lock()`: a caller that finds the lock held waits for ever. -/
def BufPool.Lock (bp : BufPool) : Option BufPool :=
  if bp.PoolLock then none else some { bp with PoolLock := true }

/-- `PoolLock.Unlock()`. -/
def BufPool.Unlock (bp : BufPool) : BufPool :=
  { bp with PoolLock := false }

/-- The list built by `makeBufList`, buf_pool.go lines 103-110: a first
buffer followed by one more buffer for each round of the loop. -/
def makeBufList.chain (cap : Int) : Nat → Buf
  | 0 => NewBuf cap
  | k + 1 => { NewBuf cap with Next := some (makeBufList.chain cap k) }

/-- `BufPool.makeBufList`, buf_pool.go lines 102-112.  The loop
`for i := 1; i < num; i++` runs `num - 1` times (not at all for `num <= 1`). -/
def BufPool.makeBufList (bp : BufPool) (cap num : Int) : BufPool :=
  { bp with
    Pool := bp.Pool.set cap (some (makeBufList.chain cap (num - 1).toNat))
    TotalMem := uint64 (bp.TotalMem + uint64 ((uint64 cap / 1024 : Nat) * (uint64 num : Int))) }

/-- `BufPool.initPool`, buf_pool.go lines 71-99. -/
def BufPool.initPool (bp : BufPool) : BufPool :=
  ((((((bp.makeBufList m4K 5000).makeBufList m16K 1000).makeBufList m64K 500).makeBufList
    m256K 200).makeBufList m1M 50).makeBufList m4M 20).makeBufList m8M 10

/-- The pool before `initPool` runs: an empty table, counter 0. -/
def emptyPool : BufPool :=
  { Pool := fun _ => none, PoolLock := false, TotalMem := 0 }

/-- `MemPool`, buf_pool.go lines 33-43: the instance that `once.Do` builds. -/
def MemPool : BufPool :=
  BufPool.initPool emptyPool

/-- A pool with an empty table whose counter is one 4096-byte buffer short of
`EXTRA_MEM_LIMIT`. -/
def nearLimitPool : BufPool :=
  { Pool := fun _ => none, PoolLock := false, TotalMem := 5242876 }

/-- A pool with one class, 4096, whose free list is `b1 -> b2`; used to run
the operations on a small state. -/
def twoBufPool : BufPool :=
  { Pool := Pool.set (fun _ => none) 4096
      (some { NewBuf 4096 with Next := some (NewBuf 4096), head := 3, length := 2 })
    PoolLock := false
    TotalMem := 8 }

/-- Step 1 of `Alloc`, buf_pool.go lines 119-136: the key `index` picked by
the chain of comparisons, `none` when the chain ends in the error return. -/
def Alloc.index (N : Int) : Option Int :=
  if N ≤ m4K then some m4K
  else if N ≤ m16K then some m16K
  else if N ≤ m64K then some m64K
  else if N ≤ m256K then some m256K
  else if N ≤ m1M then some m1M
  else if N ≤ m4M then some m4M
  else if N ≤ m8M then some m8M
  else none

/-- `BufPool.Alloc`, buf_pool.go lines 117-161.  The result is the pool after
the call with the two return values `(*Buf, error)`; `none` is a caller
blocked on the lock.  The return at line 143 leaves without `Unlock`. -/
def BufPool.Alloc (bp : BufPool) (N : Int) : Option (BufPool × Option Buf × Option String) :=
  match Alloc.index N with
  | none => some (bp, none, some "Alloc size Too Large!")
  | some index =>
    match bp.Lock with
    | none => none
    | some bp =>
      match bp.Pool.get index with
      | none =>
        if uint64 (bp.TotalMem + uint64 (index.tdiv 1024)) ≥ uint64 EXTRA_MEM_LIMIT then
          some (bp, none, some "already use too many memory!\n")
        else
          let newBuf := NewBuf index
          let bp := { bp with TotalMem := uint64 (bp.TotalMem + uint64 (index.tdiv 1024)) }
          let bp := bp.Unlock
          some (bp, some newBuf, none)
      | some targetBuf =>
        let bp := { bp with Pool := bp.Pool.set index targetBuf.Next }
        let bp := { bp with TotalMem := uint64 (bp.TotalMem - uint64 (index.tdiv 1024)) }
        let bp := bp.Unlock
        let targetBuf := { targetBuf with Next := none }
        some (bp, some targetBuf, none)

/-- `BufPool.Revert`, buf_pool.go lines 164-185.  The result is the pool
after the call, the buffer as the call leaves it, and the returned error;
`none` is a caller blocked on the lock.  The return at line 174 leaves
without `Unlock`.  The buffer is passed by value: this is the call on a
buffer that is not in the list of its class; `ptr.BufPool.Revert` is the
call on the address of any record. -/
def BufPool.Revert (bp : BufPool) (buf : Buf) : Option (BufPool × Buf × Option String) :=
  let index := buf.Capacity
  let buf := buf.Clear
  match bp.Lock with
  | none => none
  | some bp =>
    match bp.Pool index with
    | none => some (bp, buf, some ("Index " ++ toString index ++ " not in BufPoll!\n"))
    | some first =>
      let buf := { buf with Next := first }
      let bp := { bp with Pool := bp.Pool.set index (some buf) }
      let bp := { bp with TotalMem := uint64 (bp.TotalMem + uint64 (index.tdiv 1024)) }
      let bp := bp.Unlock
      some (bp, buf, none)

/-- A buffer of class 4096 in use: three bytes written, one consumed. -/
def usedBuf : Buf :=
  ((NewBuf 4096).SetBytes [7, 8, 9]).Pop 1

/-- The pool `twoBufPool` after `Revert usedBuf`. -/
def twoBufPoolReverted : BufPool :=
  { Pool := twoBufPool.Pool.set 4096
      (some { usedBuf with head := 0, length := 0, Next := twoBufPool.Pool.get 4096 })
    PoolLock := false
    TotalMem := 12 }

/-- The size classes in the order in which `Alloc` tests them. -/
def classes : List Int := [m4K, m16K, m64K, m256K, m1M, m4M, m8M]

/-- Pool states that `MemPool` followed by calls of `Alloc` and `Revert`
(on any buffer) can produce.  A blocked call produces no state. -/
inductive Reachable : BufPool → Prop
  | init : Reachable MemPool
  | alloc {bp bp1 : BufPool} {N : Int} {r : Option Buf × Option String} :
      Reachable bp → bp.Alloc N = some (bp1, r) → Reachable bp1
  | revert {bp bp1 : BufPool} {buf : Buf} {r : Buf × Option String} :
      Reachable bp → bp.Revert buf = some (bp1, r) → Reachable bp1

/-- The buffers of a list, following the `Next` links from its head. -/
def Buf.toList : Buf → List Buf
  | ⟨none, cap, len, hd, d⟩ => [⟨none, cap, len, hd, d⟩]
  | ⟨some n, cap, len, hd, d⟩ => ⟨some n, cap, len, hd, d⟩ :: n.toList

/-- The free list of class `c`: the buffers reached from `Pool[c]`, none for
a nil entry or an absent key. -/
def BufPool.freeList (bp : BufPool) (c : Int) : List Buf :=
  match bp.Pool.get c with
  | none => []
  | some b => b.toList

/-- The classes with the counts that `initPool` passes to `makeBufList`,
buf_pool.go lines 74-98. -/
def initCounts : List (Int × Nat) :=
  [(m4K, 5000), (m16K, 1000), (m64K, 500), (m256K, 200), (m1M, 50), (m4M, 20), (m8M, 10)]

/-- The KB held in free lists: over the classes, the number of buffers in the
list times the KB of the class. -/
def BufPool.residentKB (bp : BufPool) : Nat :=
  (classes.map fun c => (bp.freeList c).length * (c / 1024).toNat).sum

/-- One borrow/return round: `Alloc(N)`, then `Revert` of the buffer that it
returned.  No result when a call blocks or returns an error. -/
def BufPool.cycle (bp : BufPool) (N : Int) : Option BufPool :=
  match bp.Alloc N with
  | some (bp1, some buf, none) =>
    match bp1.Revert buf with
    | some (bp2, _, none) => some bp2
    | _ => none
  | _ => none

/-- The pool after `M` borrow/return rounds in a row. -/
def BufPool.cycles (bp : BufPool) (N : Int) : Nat → Option BufPool
  | 0 => some bp
  | M + 1 => (bp.cycles N M).bind fun q => q.cycle N

/-- The pool after `k` calls of `Alloc(N)` in a row. -/
def BufPool.allocs (bp : BufPool) (N : Int) : Nat → Option BufPool
  | 0 => some bp
  | k + 1 => (bp.allocs N k).bind fun q => (q.Alloc N).map fun r => r.1

/-- The initial pool after ten calls of `Alloc(8388608)`: the ten buffers of
the largest class are borrowed and its list is empty. -/
def drainedPool : BufPool :=
  (MemPool.allocs 8388608 10).getD emptyPool

/-- Pool states reachable as in `Reachable` by calls in which the counter
does not wrap upward: each call that adds to `TotalMem` (an `Alloc` on a
class with an empty list, a `Revert` that finds the key) finds the sum below
`2 ^ 64`. -/
inductive ReachableNoWrap : BufPool → Prop
  | init : ReachableNoWrap MemPool
  | alloc {bp bp1 : BufPool} {N : Int} {r : Option Buf × Option String} :
      ReachableNoWrap bp → bp.Alloc N = some (bp1, r) →
      (∀ c, Alloc.index N = some c → bp.Pool.get c = none →
        (bp.TotalMem : Int) + c / 1024 < 2 ^ 64) →
      ReachableNoWrap bp1
  | revert {bp bp1 : BufPool} {buf : Buf} {r : Buf × Option String} :
      ReachableNoWrap bp → bp.Revert buf = some (bp1, r) →
      (bp.Pool buf.Capacity ≠ none → (bp.TotalMem : Int) + buf.Capacity / 1024 < 2 ^ 64) →
      ReachableNoWrap bp1

/-- The invariant of a buffer stated in the data model of the spec:
`0 <= head`, `length >= 0`, `head + length <= capacity`. -/
def Buf.Inv (b : Buf) : Prop :=
  0 ≤ b.head ∧ 0 ≤ b.length ∧ b.head + b.length ≤ b.Capacity

instance (b : Buf) : Decidable b.Inv := by
  unfold Buf.Inv
  infer_instance

/-- The class that the spec asks `Alloc` to pick, in the spec's words: "the
smallest configured class `>= requestedSize`", `none` "if no class is large
enough". -/
def smallestClassAtLeast (N : Int) : Option Int :=
  (classes.filter fun c => N ≤ c).min?

/-! ## The pool with addresses

The definitions above pass buffers by value, which describes every call
whose buffer is not in a free list.  The definitions of this section keep
the addresses of the `Buf` records, so that a `*Buf` handed to `Revert` may
be one that a list already holds. -/

namespace ptr

/-- Record `Buf` of `buf.go`, with `Next` as a pointer.  The address of a
record is a natural number; a `*Buf` that may be nil is an `Option Nat`. -/
structure Buf where
  Next : Option Nat
  Capacity : Int
  length : Int
  head : Int
  data : Option Mem

/-- `Buf.Clear`, buf.go lines 81-84. -/
def Buf.Clear (b : Buf) : Buf :=
  { b with length := 0, head := 0 }

/-- The `Buf` records of the Go heap, by address. -/
abbrev Heap := Nat → Buf

/-- Write of the record at one address. -/
def Heap.set (h : Heap) (a : Nat) (b : Buf) : Heap :=
  fun x => if x = a then b else h x

/-- Type `Pool`, buf_pool.go line 10, a `map[int]*Buf`: `none` is an absent
key, `some none` a key whose value is nil, `some (some a)` a key whose value
is the address `a`. -/
abbrev Pool := Int → Option (Option Nat)

/-- Map read `p[k]`: the zero value nil for an absent key. -/
def Pool.get (p : Pool) (k : Int) : Option Nat :=
  match p k with
  | some v => v
  | none => none

/-- Map write `p[k] = v`. -/
def Pool.set (p : Pool) (k : Int) (v : Option Nat) : Pool :=
  fun j => if j = k then some v else p j

/-- Record `BufPool`, buf_pool.go lines 13-21, together with the heap that
its pointers point into: `heap` holds the `Buf` records and `brk` is the
first address that no record occupies yet.  The field `prev` is never read
and is left out. -/
structure BufPool where
  heap : Heap
  brk : Nat
  Pool : Pool
  PoolLock : Bool
  TotalMem : Nat

/-- `PoolLock.Lock()`: a caller that finds the lock held waits for ever. -/
def BufPool.Lock (bp : BufPool) : Option BufPool :=
  if bp.PoolLock then none else some { bp with PoolLock := true }

/-- `PoolLock.Unlock()`. -/
def BufPool.Unlock (bp : BufPool) : BufPool :=
  { bp with PoolLock := false }

/-- `NewBuf`, buf.go lines 27-35: the new record takes the address `brk`. -/
def NewBuf (bp : BufPool) (size : Int) : BufPool × Nat :=
  ({ bp with
      heap := bp.heap.set bp.brk
        { Capacity := size, length := 0, head := 0, Next := none, data := c.Malloc size }
      brk := bp.brk + 1 }, bp.brk)

/-- The loop of `makeBufList`, buf_pool.go lines 107-110, for `k` rounds:
`prev.Next = NewBuf(cap); prev = prev.Next`. -/
def makeBufList.loop (cap : Int) : Nat → BufPool → Nat → BufPool
  | 0, bp, _ => bp
  | k + 1, bp, prev =>
    makeBufList.loop cap k
      { (NewBuf bp cap).1 with
        heap := (NewBuf bp cap).1.heap.set prev
          { (NewBuf bp cap).1.heap prev with Next := some (NewBuf bp cap).2 } }
      (NewBuf bp cap).2

/-- `BufPool.makeBufList`, buf_pool.go lines 102-112.  The loop
`for i := 1; i < num; i++` runs `num - 1` times (not at all for `num <= 1`). -/
def BufPool.makeBufList (bp : BufPool) (cap num : Int) : BufPool :=
  { makeBufList.loop cap (num - 1).toNat
      { (NewBuf bp cap).1 with Pool := (NewBuf bp cap).1.Pool.set cap (some (NewBuf bp cap).2) }
      (NewBuf bp cap).2 with
    TotalMem := uint64 (bp.TotalMem + uint64 ((uint64 cap / 1024 : Nat) * (uint64 num : Int))) }

/-- `BufPool.initPool`, buf_pool.go lines 71-99. -/
def BufPool.initPool (bp : BufPool) : BufPool :=
  ((((((bp.makeBufList m4K 5000).makeBufList m16K 1000).makeBufList m64K 500).makeBufList
    m256K 200).makeBufList m1M 50).makeBufList m4M 20).makeBufList m8M 10

/-- The pool before `initPool` runs: an empty table, counter 0, and a heap
in which no `Buf` record has been created. -/
def emptyPool : BufPool :=
  { heap := fun _ => { Next := none, Capacity := 0, length := 0, head := 0, data := none }
    brk := 0
    Pool := fun _ => none
    PoolLock := false
    TotalMem := 0 }

/-- `MemPool`, buf_pool.go lines 33-43: the instance that `once.Do` builds. -/
def MemPool : BufPool :=
  BufPool.initPool emptyPool

/-- `BufPool.Alloc`, buf_pool.go lines 117-161.  The result is the pool after
the call with the two return values `(*Buf, error)`; `none` is a caller
blocked on the lock.  The return at line 143 leaves without `Unlock`. -/
def BufPool.Alloc (bp : BufPool) (N : Int) : Option (BufPool × Option Nat × Option String) :=
  match Alloc.index N with
  | none => some (bp, none, some "Alloc size Too Large!")
  | some index =>
    match bp.Lock with
    | none => none
    | some bp =>
      match bp.Pool.get index with
      | none =>
        if uint64 (bp.TotalMem + uint64 (index.tdiv 1024)) ≥ uint64 EXTRA_MEM_LIMIT then
          some (bp, none, some "already use too many memory!\n")
        else
          let newBuf := (NewBuf bp index).2
          let bp := (NewBuf bp index).1
          let bp := { bp with TotalMem := uint64 (bp.TotalMem + uint64 (index.tdiv 1024)) }
          let bp := bp.Unlock
          some (bp, some newBuf, none)
      | some targetBuf =>
        let bp := { bp with Pool := bp.Pool.set index (bp.heap targetBuf).Next }
        let bp := { bp with TotalMem := uint64 (bp.TotalMem - uint64 (index.tdiv 1024)) }
        let bp := bp.Unlock
        let bp := { bp with heap := bp.heap.set targetBuf { bp.heap targetBuf with Next := none } }
        some (bp, some targetBuf, none)

/-- `BufPool.Revert`, buf_pool.go lines 164-185, on the address `buf` of a
record.  The result is the pool after the call and the returned error;
`none` is a caller blocked on the lock.  The return at line 174 leaves
without `Unlock`. -/
def BufPool.Revert (bp : BufPool) (buf : Nat) : Option (BufPool × Option String) :=
  let index := (bp.heap buf).Capacity
  let bp := { bp with heap := bp.heap.set buf (bp.heap buf).Clear }
  match bp.Lock with
  | none => none
  | some bp =>
    match bp.Pool index with
    | none => some (bp, some ("Index " ++ toString index ++ " not in BufPoll!\n"))
    | some first =>
      let bp := { bp with heap := bp.heap.set buf { bp.heap buf with Next := first } }
      let bp := { bp with Pool := bp.Pool.set index (some buf) }
      let bp := { bp with TotalMem := uint64 (bp.TotalMem + uint64 (index.tdiv 1024)) }
      let bp := bp.Unlock
      some (bp, none)

/-- The address `a` is reached from the pointer `p` by following `Next`
links: `a` is in the list that starts at `p`. -/
inductive InList (h : Heap) : Option Nat → Nat → Prop
  | head (a : Nat) : InList h (some a) a
  | next {a b : Nat} : InList h (h a).Next b → InList h (some a) b

/-- The list that starts at the pointer `p` ends in nil and consists of the
records at the addresses `l`, in this order. -/
inductive IsList (h : Heap) : Option Nat → List Nat → Prop
  | nil : IsList h none []
  | cons {a : Nat} {l : List Nat} : IsList h (h a).Next l → IsList h (some a) (a :: l)

/-- The first `n` addresses met from the pointer `p` along `Next` links. -/
def walk (h : Heap) : Nat → Option Nat → List Nat
  | 0, _ => []
  | _ + 1, none => []
  | n + 1, some a => a :: walk h n (h a).Next

/-- Pool states that the program can produce from `MemPool`: by calls of
`Alloc`, by calls of `Revert` on the address of a record that exists and
that `ok` admits, by a caller that creates a buffer with `NewBuf`, and by a
caller that runs methods of `Buf` (which write `head`, `length` and the
memory of records, never `Next` or `Capacity`).  A blocked call produces no
state. -/
inductive ReachableBy (ok : BufPool → Nat → Prop) : BufPool → Prop
  | init : ReachableBy ok MemPool
  | alloc {bp bp1 : BufPool} {N : Int} {r : Option Nat × Option String} :
      ReachableBy ok bp → bp.Alloc N = some (bp1, r) → ReachableBy ok bp1
  | revert {bp bp1 : BufPool} {buf : Nat} {e : Option String} :
      ReachableBy ok bp → buf < bp.brk → ok bp buf → bp.Revert buf = some (bp1, e) →
      ReachableBy ok bp1
  | newBuf {bp : BufPool} (size : Int) : ReachableBy ok bp → ReachableBy ok (NewBuf bp size).1
  | use {bp : BufPool} (h : Heap) :
      ReachableBy ok bp →
      (∀ a, (h a).Next = (bp.heap a).Next ∧ (h a).Capacity = (bp.heap a).Capacity) →
      ReachableBy ok { bp with heap := h }

/-- Pool states reachable with `Revert` called on any existing record. -/
def Reachable (bp : BufPool) : Prop :=
  ReachableBy (fun _ _ => True) bp

/-- Pool states reachable with `Revert` called only on records that are not
in the list of class 262144 at the time of the call. -/
def ReachableKeeping256K (bp : BufPool) : Prop :=
  ReachableBy (fun s b => ¬ InList s.heap (s.Pool.get 262144) b) bp

/-- The links of the heap are sound: the head of the list of a class is an
existing record of the capacity of the class, and the `Next` of a record is
an existing record of the same capacity. -/
def BufPool.Linked (bp : BufPool) : Prop :=
  (∀ (k : Int) (h : Nat), bp.Pool.get k = some h → h < bp.brk ∧ (bp.heap h).Capacity = k)
  ∧ ∀ (a b : Nat), (bp.heap a).Next = some b →
      b < bp.brk ∧ (bp.heap b).Capacity = (bp.heap a).Capacity

end ptr

/-! ## Buffers -/

theorem GoBytes_zero (region : Option Mem) (off : Int) : GoBytes region off 0 = [] := by
  cases region <;> simp [GoBytes]

/-- C1: `SetBytes` does not append to a buffer that already holds bytes.
On a fresh buffer of capacity 4096 that holds "ab" (head 0, length 2, so
that two more bytes fit), `SetBytes("cd")` makes `GetBytes()` start with
"cd": the copy went to offset `head`, over the old bytes, and the result is
not the old bytes followed by "cd".  Length and head are as the claim says. -/
theorem SetBytes_second_write_overwrites :
    ((NewBuf 4096).SetBytes [97, 98]).GetBytes = [97, 98]
    ∧ ((NewBuf 4096).SetBytes [97, 98]).head + ((NewBuf 4096).SetBytes [97, 98]).length + 2
        ≤ ((NewBuf 4096).SetBytes [97, 98]).Capacity
    ∧ (((NewBuf 4096).SetBytes [97, 98]).SetBytes [99, 100]).GetBytes.take 2 = [99, 100]
    ∧ (((NewBuf 4096).SetBytes [97, 98]).SetBytes [99, 100]).GetBytes
        ≠ ((NewBuf 4096).SetBytes [97, 98]).GetBytes ++ [99, 100]
    ∧ (((NewBuf 4096).SetBytes [97, 98]).SetBytes [99, 100]).Length = 4
    ∧ (((NewBuf 4096).SetBytes [97, 98]).SetBytes [99, 100]).Head = 0 := by
  refine ⟨by decide, by decide, by decide, by decide, by decide, by decide⟩

/-- C10: a `Pop(n)` with `n > Length()`, or on a buffer without backing
memory (`data` is nil), returns the buffer as it was: head, length, memory
and so `Head()`, `Length()` and `GetBytes()` are those from before. -/
theorem Pop_invalid_is_noop (b : Buf) (n : Int)
    (h : n > b.Length ∨ b.data.isNone = true) :
    b.Pop n = b
    ∧ (b.Pop n).Head = b.Head ∧ (b.Pop n).Length = b.Length
    ∧ (b.Pop n).GetBytes = b.GetBytes ∧ (b.Pop n).data = b.data := by
  have hp : b.Pop n = b := by
    unfold Buf.Pop
    rcases h with h | h
    · have h1 : n > b.length := h
      simp [h1]
    · simp [h]
  rw [hp]
  exact ⟨rfl, rfl, rfl, rfl, rfl⟩

theorem Pop_invalid_is_noop_witness :
    (((NewBuf 4096).SetBytes [1, 2, 3]).Pop 4) = (NewBuf 4096).SetBytes [1, 2, 3]
    ∧ (((NewBuf 4096).SetBytes [1, 2, 3]).Pop 4).Head = ((NewBuf 4096).SetBytes [1, 2, 3]).Head
    ∧ (((NewBuf 4096).SetBytes [1, 2, 3]).Pop 4).Length
        = ((NewBuf 4096).SetBytes [1, 2, 3]).Length
    ∧ (((NewBuf 4096).SetBytes [1, 2, 3]).Pop 4).GetBytes
        = ((NewBuf 4096).SetBytes [1, 2, 3]).GetBytes
    ∧ (((NewBuf 4096).SetBytes [1, 2, 3]).Pop 4).data = ((NewBuf 4096).SetBytes [1, 2, 3]).data :=
  Pop_invalid_is_noop ((NewBuf 4096).SetBytes [1, 2, 3]) 4 (Or.inl (by decide))

/-- What `Adjust` leaves at offset 0 is what was at offset `head`. -/
theorem GoBytes_Memmove (region : Mem) (off len : Int) :
    GoBytes (c.Memmove (some region) 0 off len) 0 len = GoBytes (some region) off len := by
  simp only [GoBytes, c.Memmove, Option.map_some']
  apply List.ext_getElem
  · simp
  · intro i h1 h2
    simp only [List.length_map, List.length_range] at h2
    simp only [List.getElem_map, List.getElem_range]
    rw [if_pos (by omega)]
    congr 1
    ring

/-- C11: on a buffer with `0 <= head` and `head + length <= Capacity`,
`GetBytes()` after `Adjust()` is the same byte sequence as before it,
`Length()` is unchanged and `Head()` is 0; a buffer whose head is already 0
is returned unchanged. -/
theorem Adjust_preserves_content (b : Buf) (_hhead : 0 ≤ b.head)
    (_hfit : b.head + b.length ≤ b.Capacity) :
    b.Adjust.GetBytes = b.GetBytes ∧ b.Adjust.Length = b.Length ∧ b.Adjust.Head = 0
    ∧ (b.head = 0 → b.Adjust = b) := by
  refine ⟨?_, ?_, ?_, ?_⟩
  · unfold Buf.Adjust
    split_ifs with h1 h2
    · cases hd : b.data with
      | none => simp [Buf.GetBytes, hd, c.Memmove, GoBytes]
      | some region =>
        simp only [Buf.GetBytes, hd]
        exact GoBytes_Memmove region b.head b.length
    · have h3 : b.length = 0 := not_not.mp h2
      simp [Buf.GetBytes, h3, GoBytes_zero]
    · rfl
  · unfold Buf.Adjust
    split_ifs <;> rfl
  · unfold Buf.Adjust
    split_ifs with h1 h2
    · rfl
    · rfl
    · exact not_not.mp h1
  · intro h
    simp [Buf.Adjust, h]

theorem Adjust_preserves_content_witness :
    (((NewBuf 4096).SetBytes aceld).Pop 4).GetBytes = [100, 49, 50, 51, 52, 53]
    ∧ (((NewBuf 4096).SetBytes aceld).Pop 4).Head = 4
    ∧ (((NewBuf 4096).SetBytes aceld).Pop 4).Adjust.GetBytes = [100, 49, 50, 51, 52, 53]
    ∧ (((NewBuf 4096).SetBytes aceld).Pop 4).Adjust.Length = 6
    ∧ (((NewBuf 4096).SetBytes aceld).Pop 4).Adjust.Head = 0 :=
  have h := Adjust_preserves_content (((NewBuf 4096).SetBytes aceld).Pop 4) (by decide)
    (by decide)
  ⟨by decide, by decide, h.1, h.2.1, h.2.2.1⟩

/-- C12, as stated, fails on a buffer that already holds bytes.  A fresh
buffer of capacity 4096 holds "ab"; "cd" fits; after `SetBytes("cd")` and
`Pop(2)` the length is 2, not 0, and `GetBytes()` is not empty.  So the
statement "for any buffer and any slice that fits, `SetBytes(x)` then
`Pop(len(x))` leaves length 0 and no bytes" is false. -/
theorem SetBytes_Pop_nonempty_counterexample :
    ((NewBuf 4096).SetBytes [97, 98]).head + ((NewBuf 4096).SetBytes [97, 98]).length + 2
        ≤ ((NewBuf 4096).SetBytes [97, 98]).Capacity
    ∧ ((((NewBuf 4096).SetBytes [97, 98]).SetBytes [99, 100]).Pop 2).Length = 2
    ∧ ((((NewBuf 4096).SetBytes [97, 98]).SetBytes [99, 100]).Pop 2).GetBytes.length = 2
    ∧ ¬ ∀ (b : Buf) (x : List UInt8), b.head + b.length + (x.length : Int) ≤ b.Capacity →
        ((b.SetBytes x).Pop (x.length : Int)).Length = 0
        ∧ ((b.SetBytes x).Pop (x.length : Int)).GetBytes = [] := by
  refine ⟨by decide, by decide, by decide, ?_⟩
  intro h
  have h1 := (h ((NewBuf 4096).SetBytes [97, 98]) [99, 100] (by decide)).1
  exact absurd h1 (by decide)

/-- C12, amended: on a buffer with backing memory and any byte slice `x` that
fits, `SetBytes(x)` followed by `Pop(len(x))` leaves the length that the
buffer had before (for a length that is not negative); so on an empty buffer
(length 0) it leaves `Length() == 0` and `GetBytes()` empty. -/
theorem SetBytes_Pop_all_on_empty (b : Buf) (x : List UInt8) (hdata : b.data.isSome = true)
    (_hfit : b.head + b.length + (x.length : Int) ≤ b.Capacity) :
    (0 ≤ b.Length → ((b.SetBytes x).Pop (x.length : Int)).Length = b.Length)
    ∧ (b.Length = 0 →
        ((b.SetBytes x).Pop (x.length : Int)).Length = 0
        ∧ ((b.SetBytes x).Pop (x.length : Int)).GetBytes = []) := by
  obtain ⟨region, hregion⟩ := Option.isSome_iff_exists.mp hdata
  have hlen : 0 ≤ b.length → ((b.SetBytes x).Pop (x.length : Int)).length = b.length := by
    intro h0
    have hg : ¬ (x.length : Int) > b.length + (x.length : Int) := by omega
    simp [Buf.Pop, Buf.SetBytes, hregion, c.Memcpy, hg]
  refine ⟨hlen, ?_⟩
  intro hz
  have hz1 : b.length = 0 := hz
  have h1 : ((b.SetBytes x).Pop (x.length : Int)).length = 0 := by
    rw [hlen (by omega), hz1]
  refine ⟨h1, ?_⟩
  unfold Buf.GetBytes
  rw [h1]
  exact GoBytes_zero _ _

theorem SetBytes_Pop_all_on_empty_witness :
    (((NewBuf 4096).SetBytes aceld).Pop 10).Length = 0
    ∧ (((NewBuf 4096).SetBytes aceld).Pop 10).GetBytes = []
    ∧ (((NewBuf 4096).SetBytes aceld).Pop 10).Head = 10 :=
  have h := SetBytes_Pop_all_on_empty (NewBuf 4096) aceld rfl (by decide)
  ⟨(h.2 rfl).1, (h.2 rfl).2, by decide⟩

/-- The cases in which the operations on a buffer keep the invariant:
`SetBytes` of a slice that fits, `Pop(n)` with `n >= 0`, `Adjust`, `Clear`,
and `Copy` from a buffer that satisfies the invariant and whose length is at
most the capacity. -/
theorem Buf.Inv_preserved (b : Buf) (h : b.Inv) :
    (∀ x : List UInt8, b.head + b.length + (x.length : Int) ≤ b.Capacity → (b.SetBytes x).Inv)
    ∧ (∀ n : Int, 0 ≤ n → (b.Pop n).Inv)
    ∧ b.Adjust.Inv ∧ b.Clear.Inv
    ∧ (∀ other : Buf, other.Inv → b.Capacity ≥ other.length → (b.Copy other).Inv) := by
  obtain ⟨h1, h2, h3⟩ := h
  refine ⟨?_, ?_, ?_, ?_, ?_⟩
  · intro x hx
    simp only [Buf.Inv, Buf.SetBytes]
    omega
  · intro n hn
    unfold Buf.Pop
    split_ifs with ha hb
    · exact ⟨h1, h2, h3⟩
    · exact ⟨h1, h2, h3⟩
    · simp only [Buf.Inv]
      omega
  · unfold Buf.Adjust
    split_ifs
    · simp only [Buf.Inv]; omega
    · simp only [Buf.Inv]; omega
    · exact ⟨h1, h2, h3⟩
  · simp only [Buf.Inv, Buf.Clear]
    omega
  · intro other ho hcap
    obtain ⟨_, o2, _⟩ := ho
    simp only [Buf.Inv, Buf.Copy]
    omega

/-- C16: `Pop` with a negative argument breaks the invariant of a buffer.
The fresh buffer `NewBuf(4096)` satisfies `0 <= head`, `length >= 0` and
`head + length <= Capacity`; it has backing memory and `-1 > length` is
false, so `Pop(-1)` passes both guards and leaves head -1 and length 1:
`0 <= head` no longer holds. -/
theorem Pop_negative_breaks_invariant :
    (NewBuf 4096).Inv
    ∧ ((NewBuf 4096).Pop (-1)).Head = -1 ∧ ((NewBuf 4096).Pop (-1)).Length = 1
    ∧ ¬ ((NewBuf 4096).Pop (-1)).Inv := by
  refine ⟨by decide, by decide, by decide, by decide⟩

/-! ## Class selection -/

/-- C2: `Alloc` does not pick the smallest configured class that fits.  For
`N = 20000` the comparisons of `Alloc` pick 655535 (the value of `m64K`),
and `Alloc` on the initial pool returns a buffer of that capacity, while the
smallest configured class at or above 20000 is 262144. -/
theorem Alloc_20000_skips_smallest_class :
    Alloc.index 20000 = some 655535
    ∧ smallestClassAtLeast 20000 = some 262144
    ∧ (MemPool.Alloc 20000).map (fun r => (r.2.1.map Buf.Capacity, r.2.2))
        = some (some 655535, none) := by
  refine ⟨by decide, by decide, by decide⟩

/-- C3: a request above the largest class (8388608) returns the too-large
error and no buffer, in every pool state, and the pool after the call is the
pool before it: table, counter and lock are untouched. -/
theorem Alloc_too_large (bp : BufPool) (N : Int) (hN : N > 8388608) :
    bp.Alloc N = some (bp, none, some "Alloc size Too Large!") := by
  have h : Alloc.index N = none := by
    simp only [Alloc.index, m4K, m16K, m64K, m256K, m1M, m4M, m8M]
    repeat rw [if_neg (by omega)]
  simp [BufPool.Alloc, h]

theorem Alloc_too_large_witness :
    (8388609 : Int) > 8388608
    ∧ MemPool.Alloc 8388609 = some (MemPool, none, some "Alloc size Too Large!") :=
  ⟨by decide, Alloc_too_large MemPool 8388609 (by decide)⟩

/-! ## The pool -/

theorem Alloc.index_mem {N c : Int} (h : Alloc.index N = some c) :
    c = 4096 ∨ c = 16384 ∨ c = 655535 ∨ c = 1048576 ∨ c = 4194304 ∨ c = 8388608 := by
  simp only [Alloc.index, m4K, m16K, m64K, m256K, m1M, m4M, m8M] at h
  split_ifs at h <;> simp at h <;> omega

theorem uint64_cast (x : Int) : ((uint64 x : Nat) : Int) = x % 2 ^ 64 := by
  unfold uint64
  exact Int.toNat_of_nonneg (Int.emod_nonneg _ (by norm_num))

theorem Alloc.index_kb {N c : Int} (h : Alloc.index N = some c) :
    ((uint64 (c.tdiv 1024) : Nat) : Int) = c / 1024 := by
  rcases Alloc.index_mem h with h | h | h | h | h | h <;> subst h <;> decide

theorem Pool.get_set_self (p : Pool) (k : Int) (v : Option Buf) : (p.set k v).get k = v := by
  simp [Pool.get, Pool.set]

theorem Pool.set_other (p : Pool) (k : Int) (v : Option Buf) (j : Int) (h : j ≠ k) :
    (p.set k v) j = p j := by
  simp [Pool.set, h]

/-- The path of `Alloc` through lines 154-160, as an equation. -/
theorem Alloc_eq_pop (bp : BufPool) (N c : Int) (target : Buf)
    (hsel : Alloc.index N = some c) (hlock : bp.PoolLock = false)
    (hne : bp.Pool.get c = some target) :
    bp.Alloc N
      = some ({ Pool := bp.Pool.set c target.Next, PoolLock := false,
                TotalMem := uint64 ((bp.TotalMem : Int) - (uint64 (c.tdiv 1024) : Nat)) },
              some { target with Next := none }, none) := by
  have hne1 : Pool.get { bp with PoolLock := true }.Pool c = some target := hne
  simp [BufPool.Alloc, hsel, BufPool.Lock, hlock, hne1, BufPool.Unlock]

/-- C5: `Alloc` on a class `c` whose free list is empty, called with the lock
free and a counter that the `uint64` addition of `c / 1024` does not wrap.
If `TotalMem + c / 1024` reaches `EXTRA_MEM_LIMIT` (equality included) the
call returns an error and no buffer, and table and counter are as before
(the pool differs from the one before the call only in its lock, still
held).  Otherwise the call returns `NewBuf c`, a buffer of capacity `c`,
head 0, length 0 and no `Next`, with no error; the counter went up by
exactly `c / 1024` and the table is as before. -/
theorem Alloc_empty_class (bp : BufPool) (N c : Int)
    (hsel : Alloc.index N = some c) (hlock : bp.PoolLock = false)
    (hempty : bp.Pool.get c = none) (hT : (bp.TotalMem : Int) + c / 1024 < 2 ^ 64) :
    (EXTRA_MEM_LIMIT ≤ bp.TotalMem + c / 1024 →
        bp.Alloc N
          = some ({ bp with PoolLock := true }, none, some "already use too many memory!\n"))
    ∧ ((bp.TotalMem : Int) + c / 1024 < EXTRA_MEM_LIMIT →
        ∃ bp1 : BufPool,
          bp.Alloc N = some (bp1, some (NewBuf c), none)
          ∧ bp1.Pool = bp.Pool
          ∧ (bp1.TotalMem : Int) = bp.TotalMem + c / 1024
          ∧ bp1.PoolLock = false)
    ∧ (NewBuf c).Capacity = c ∧ (NewBuf c).head = 0 ∧ (NewBuf c).length = 0
    ∧ (NewBuf c).Next = none := by
  have hkb := Alloc.index_kb hsel
  have hpos : (0 : Int) ≤ c / 1024 := by
    rcases Alloc.index_mem hsel with h | h | h | h | h | h <;> subst h <;> decide
  have hsum : ((uint64 ((bp.TotalMem : Int) + (uint64 (c.tdiv 1024) : Nat)) : Nat) : Int)
      = bp.TotalMem + c / 1024 := by
    rw [uint64_cast, hkb]
    apply Int.emod_eq_of_lt <;> omega
  have hlim : ((uint64 EXTRA_MEM_LIMIT : Nat) : Int) = EXTRA_MEM_LIMIT := by decide
  have hempty1 : Pool.get { bp with PoolLock := true }.Pool c = none := hempty
  have hcond : (uint64 ((bp.TotalMem : Int) + (uint64 (c.tdiv 1024) : Nat))
      ≥ uint64 EXTRA_MEM_LIMIT) ↔ EXTRA_MEM_LIMIT ≤ (bp.TotalMem : Int) + c / 1024 := by
    rw [← hsum, ← hlim]
    exact Int.ofNat_le.symm
  refine ⟨?_, ?_, rfl, rfl, rfl, rfl⟩
  · intro h
    simp [BufPool.Alloc, hsel, BufPool.Lock, hlock, hempty1, hcond.mpr h]
  · intro h
    refine ⟨{ bp with TotalMem := uint64 ((bp.TotalMem : Int) + (uint64 (c.tdiv 1024) : Nat)) },
      ?_, rfl, hsum, hlock⟩
    have hn : ¬ (uint64 ((bp.TotalMem : Int) + (uint64 (c.tdiv 1024) : Nat))
        ≥ uint64 EXTRA_MEM_LIMIT) := fun h1 => absurd (hcond.mp h1) (by omega)
    simp only [ge_iff_le] at hn
    simp [BufPool.Alloc, hsel, BufPool.Lock, hlock, hempty1, hn, BufPool.Unlock]

theorem Alloc_empty_class_witness :
    ((EXTRA_MEM_LIMIT ≤ emptyPool.TotalMem + (4096 : Int) / 1024 →
        emptyPool.Alloc 100
          = some ({ emptyPool with PoolLock := true }, none,
              some "already use too many memory!\n"))
    ∧ ((emptyPool.TotalMem : Int) + 4096 / 1024 < EXTRA_MEM_LIMIT →
        ∃ bp1 : BufPool,
          emptyPool.Alloc 100 = some (bp1, some (NewBuf 4096), none)
          ∧ bp1.Pool = emptyPool.Pool
          ∧ (bp1.TotalMem : Int) = emptyPool.TotalMem + 4096 / 1024
          ∧ bp1.PoolLock = false)
    ∧ (NewBuf 4096).Capacity = 4096 ∧ (NewBuf 4096).head = 0 ∧ (NewBuf 4096).length = 0
    ∧ (NewBuf 4096).Next = none)
    ∧ (emptyPool.TotalMem : Int) + 4096 / 1024 < EXTRA_MEM_LIMIT
    ∧ EXTRA_MEM_LIMIT ≤ nearLimitPool.TotalMem + (4096 : Int) / 1024
    ∧ nearLimitPool.Alloc 100
        = some ({ nearLimitPool with PoolLock := true }, none,
            some "already use too many memory!\n") :=
  ⟨Alloc_empty_class emptyPool 100 4096 (by decide) rfl rfl (by decide), by decide, by decide,
    (Alloc_empty_class nearLimitPool 100 4096 (by decide) rfl rfl (by decide)).1 (by decide)⟩

theorem Pool.set_isSome (p : Pool) (k : Int) (v : Option Buf) (hk : (p k).isSome = true)
    (j : Int) : ((p.set k v) j).isSome = (p j).isSome := by
  by_cases h : j = k
  · subst h
    simp [Pool.set, hk]
  · simp [Pool.set, h]

theorem Pool.get_eq_some {p : Pool} {k : Int} {b : Buf} (h : p.get k = some b) :
    (p k).isSome = true := by
  unfold Pool.get at h
  split at h
  · simp_all
  · simp at h

/-- `Alloc` neither adds a key to the table nor removes one. -/
theorem Alloc_keys {bp bp1 : BufPool} {N : Int} {r : Option Buf × Option String}
    (h : bp.Alloc N = some (bp1, r)) (k : Int) : (bp1.Pool k).isSome = (bp.Pool k).isSome := by
  unfold BufPool.Alloc at h
  split at h
  · simp only [Option.some.injEq, Prod.mk.injEq] at h
    rw [← h.1]
  · rename_i index _
    unfold BufPool.Lock at h
    split_ifs at h with hl
    simp only at h
    split at h
    · split_ifs at h
      · simp only [Option.some.injEq, Prod.mk.injEq] at h
        rw [← h.1]
      · simp only [Option.some.injEq, Prod.mk.injEq] at h
        rw [← h.1]
        rfl
    · rename_i targetBuf hget
      simp only [Option.some.injEq, Prod.mk.injEq] at h
      rw [← h.1]
      exact Pool.set_isSome _ _ _ (Pool.get_eq_some hget) k

/-- `Revert` neither adds a key to the table nor removes one. -/
theorem Revert_keys {bp bp1 : BufPool} {buf : Buf} {r : Buf × Option String}
    (h : bp.Revert buf = some (bp1, r)) (k : Int) :
    (bp1.Pool k).isSome = (bp.Pool k).isSome := by
  unfold BufPool.Revert BufPool.Lock at h
  split_ifs at h with hl
  simp only at h
  split at h
  · simp only [Option.some.injEq, Prod.mk.injEq] at h
    rw [← h.1]
  · rename_i first hfirst
    simp only [Option.some.injEq, Prod.mk.injEq] at h
    rw [← h.1]
    exact Pool.set_isSome _ _ _ (by simp [hfirst]) k

theorem MemPool_keys (k : Int) : (MemPool.Pool k).isSome = true ↔ k ∈ classes := by
  simp only [MemPool, BufPool.initPool, BufPool.makeBufList, Pool.set, emptyPool, classes,
    List.mem_cons, List.mem_singleton, List.not_mem_nil, or_false]
  split_ifs <;> simp_all

/-- In every reachable pool the keys of the table are the seven classes. -/
theorem Reachable.keys {bp : BufPool} (h : Reachable bp) (k : Int) :
    (bp.Pool k).isSome = true ↔ k ∈ classes := by
  induction h with
  | init => exact MemPool_keys k
  | alloc _ hstep ih => rw [Alloc_keys hstep k]; exact ih
  | revert _ hstep ih => rw [Revert_keys hstep k]; exact ih

theorem classes_kb {c : Int} (h : c ∈ classes) :
    ((uint64 (c.tdiv 1024) : Nat) : Int) = c / 1024 := by
  simp only [classes, List.mem_cons, List.mem_singleton, List.not_mem_nil, or_false] at h
  rcases h with h | h | h | h | h | h | h <;> subst h <;> decide

/-- A `Revert` that returns no error found the lock free and the key of the
buffer in the table, and took the path through lines 178-184. -/
theorem Revert_eq_success {bp bp1 : BufPool} {b b1 : Buf}
    (h : bp.Revert b = some (bp1, b1, none)) :
    bp.PoolLock = false ∧ ∃ first : Option Buf,
      bp.Pool b.Capacity = some first
      ∧ b1 = { b with head := 0, length := 0, Next := first }
      ∧ bp1 = { Pool := bp.Pool.set b.Capacity
                  (some { b with head := 0, length := 0, Next := first }),
                PoolLock := false,
                TotalMem := uint64 ((bp.TotalMem : Int) + (uint64 (b.Capacity.tdiv 1024) : Nat)) } := by
  unfold BufPool.Revert BufPool.Lock at h
  split_ifs at h with hl
  simp only at h
  split at h
  · simp at h
  · rename_i first hfirst
    simp only [Option.some.injEq, Prod.mk.injEq, and_true] at h
    exact ⟨by simpa using hl, first, hfirst, h.2.symm, h.1.symm⟩

/-- C7: after a `Revert(b)` that returned no error, the next `Alloc(N)` whose
selected class is the capacity of `b` returns no error and the buffer `b`
itself (same capacity, same memory), with head 0, length 0 and no `Next`,
whatever head, length and bytes `b` had; so `Length()` and `Head()` are 0
and `GetBytes()` is empty. -/
theorem Revert_then_Alloc_returns_same (bp bp1 : BufPool) (b b1 : Buf) (N : Int)
    (hrev : bp.Revert b = some (bp1, b1, none)) (hsel : Alloc.index N = some b.Capacity) :
    ∃ (bp2 : BufPool) (out : Buf),
      bp1.Alloc N = some (bp2, some out, none)
      ∧ out = { b with head := 0, length := 0, Next := none }
      ∧ out.Capacity = b.Capacity ∧ out.data = b.data
      ∧ out.Length = 0 ∧ out.Head = 0 ∧ out.GetBytes = [] := by
  obtain ⟨_, first, _, _, hbp1⟩ := Revert_eq_success hrev
  subst hbp1
  exact ⟨_, _, Alloc_eq_pop _ N b.Capacity { b with head := 0, length := 0, Next := first }
    hsel rfl (Pool.get_set_self _ _ _), rfl, rfl, rfl, rfl, rfl, GoBytes_zero _ _⟩

theorem Revert_then_Alloc_returns_same_witness :
    twoBufPool.Revert usedBuf
      = some (twoBufPoolReverted,
          { usedBuf with head := 0, length := 0, Next := twoBufPool.Pool.get 4096 }, none)
    ∧ ∃ (bp2 : BufPool) (out : Buf),
      twoBufPoolReverted.Alloc 4096 = some (bp2, some out, none)
      ∧ out = { usedBuf with head := 0, length := 0, Next := none }
      ∧ out.Capacity = usedBuf.Capacity ∧ out.data = usedBuf.data
      ∧ out.Length = 0 ∧ out.Head = 0 ∧ out.GetBytes = [] :=
  ⟨rfl, Revert_then_Alloc_returns_same twoBufPool twoBufPoolReverted usedBuf _ 4096 rfl
    (by decide)⟩

/-- C8: `Revert` of a buffer whose capacity is not a key of the table, called
with the lock free, returns an error; table and counter are as before the
call (the pool differs from the one before only in its lock, still held),
and the buffer is left cleared. -/
theorem Revert_unknown_class (bp : BufPool) (b : Buf) (hlock : bp.PoolLock = false)
    (hkey : bp.Pool b.Capacity = none) :
    ∃ (bp1 : BufPool) (msg : String),
      bp.Revert b = some (bp1, b.Clear, some msg)
      ∧ bp1.Pool = bp.Pool ∧ bp1.TotalMem = bp.TotalMem
      ∧ bp1 = { bp with PoolLock := true } := by
  refine ⟨{ bp with PoolLock := true }, "Index " ++ toString b.Capacity ++ " not in BufPoll!\n",
    ?_, rfl, rfl, rfl⟩
  simp only [BufPool.Revert, BufPool.Lock, hlock]
  simp [hkey]

theorem Revert_unknown_class_witness :
    ∃ (bp1 : BufPool) (msg : String),
      MemPool.Revert (NewBuf 65536) = some (bp1, (NewBuf 65536).Clear, some msg)
      ∧ bp1.Pool = MemPool.Pool ∧ bp1.TotalMem = MemPool.TotalMem
      ∧ bp1 = { MemPool with PoolLock := true } :=
  Revert_unknown_class MemPool (NewBuf 65536) rfl rfl

/-- In a reachable pool a capacity outside the seven classes is not a key. -/
theorem Reachable.key_absent {bp : BufPool} (h : Reachable bp) {c : Int} (hc : c ∉ classes) :
    bp.Pool c = none := by
  have := h.keys c
  cases hp : bp.Pool c with
  | none => rfl
  | some v => rw [hp] at this; exact absurd (this.mp rfl) hc

/-! ## Free lists and initialisation -/

theorem Buf.toList_eq (b : Buf) :
    b.toList = b :: (match b.Next with | none => [] | some n => n.toList) := by
  obtain ⟨nx, cap, len, hd, d⟩ := b
  cases nx <;> simp [Buf.toList]

theorem makeBufList.chain_length (cap : Int) (k : Nat) :
    (makeBufList.chain cap k).toList.length = k + 1 := by
  induction k with
  | zero => rw [Buf.toList_eq]; rfl
  | succ k ih =>
    rw [Buf.toList_eq]
    simp only [makeBufList.chain, List.length_cons, ih]

theorem makeBufList.chain_members (cap : Int) (k : Nat) :
    ∀ b ∈ (makeBufList.chain cap k).toList, b.Capacity = cap ∧ b.length = 0 ∧ b.head = 0 := by
  induction k with
  | zero =>
    intro b hb
    rw [Buf.toList_eq] at hb
    simp only [makeBufList.chain, NewBuf, List.mem_singleton] at hb
    subst hb
    exact ⟨rfl, rfl, rfl⟩
  | succ k ih =>
    intro b hb
    rw [Buf.toList_eq] at hb
    simp only [makeBufList.chain, List.mem_cons] at hb
    rcases hb with hb | hb
    · subst hb
      exact ⟨rfl, rfl, rfl⟩
    · exact ih b hb

theorem makeBufList_freeList (bp : BufPool) (cap num : Int) :
    (bp.makeBufList cap num).freeList cap = (makeBufList.chain cap (num - 1).toNat).toList := by
  simp [BufPool.freeList, BufPool.makeBufList, Pool.get_set_self]

theorem makeBufList_freeList_other (bp : BufPool) (cap num c : Int) (h : c ≠ cap) :
    (bp.makeBufList cap num).freeList c = bp.freeList c := by
  simp [BufPool.freeList, BufPool.makeBufList, Pool.get, Pool.set, h]

theorem initPool_freeList :
    ∀ ck ∈ initCounts,
      (BufPool.initPool emptyPool).freeList ck.1 = (makeBufList.chain ck.1 (ck.2 - 1)).toList := by
  intro ck hck
  simp only [initCounts, List.mem_cons, List.mem_singleton, List.not_mem_nil, or_false] at hck
  rcases hck with h | h | h | h | h | h | h <;> subst h <;> rfl

theorem uint64_of_range {x : Int} (h0 : 0 ≤ x) (h1 : x < 2 ^ 63) : ((uint64 x : Nat) : Int) = x := by
  rw [uint64_cast]
  apply Int.emod_eq_of_lt <;> omega

theorem makeBufList_TotalMem (bp : BufPool) (cap num : Int) (hcap : 0 ≤ cap)
    (hcap1 : cap < 2 ^ 63) (hnum : 0 ≤ num) (hnum1 : num < 2 ^ 63) :
    ((bp.makeBufList cap num).TotalMem : Int) = (bp.TotalMem + cap / 1024 * num) % 2 ^ 64 := by
  have h : (((uint64 cap / 1024 : Nat) : Nat) : Int) = cap / 1024 := by
    push_cast
    rw [uint64_of_range hcap hcap1]
  simp only [BufPool.makeBufList, uint64_cast (_ + _), uint64_cast (_ * _), Int.add_emod_emod]
  rw [uint64_of_range hnum hnum1, h]

/-- C13: after `initPool` on the empty pool the keys of the table are exactly
the seven classes; for each class `c` with its configured count `k` the free
list of `c` has exactly `k` buffers, each with capacity `c`, length 0 and
head 0; and `TotalMem` is the sum over the classes of `k * (c / 1024)`,
which is 622240.  In general `makeBufList(cap, num)` with `num >= 1` (and
`cap`, `num` in the range of a capacity and a count) builds a list of
exactly `num` buffers of capacity `cap`, length 0 and head 0, and adds
`(cap / 1024) * num` to the `uint64` counter: modulo `2 ^ 64`, exactly when
the sum stays below `2 ^ 64`. -/
theorem initPool_postcondition :
    (∀ k : Int, ((BufPool.initPool emptyPool).Pool k).isSome = true ↔ k ∈ classes)
    ∧ classes = [4096, 16384, 655535, 262144, 1048576, 4194304, 8388608]
    ∧ initCounts = [(4096, 5000), (16384, 1000), (655535, 500), (262144, 200), (1048576, 50),
        (4194304, 20), (8388608, 10)]
    ∧ (∀ ck ∈ initCounts,
        ((BufPool.initPool emptyPool).freeList ck.1).length = ck.2
        ∧ ∀ b ∈ (BufPool.initPool emptyPool).freeList ck.1,
            b.Capacity = ck.1 ∧ b.length = 0 ∧ b.head = 0)
    ∧ (BufPool.initPool emptyPool).TotalMem
        = (initCounts.map fun ck => ck.2 * (ck.1 / 1024).toNat).sum
    ∧ (BufPool.initPool emptyPool).TotalMem = 622240
    ∧ ∀ (bp : BufPool) (cap num : Int), 1 ≤ num → num < 2 ^ 63 → 0 ≤ cap → cap < 2 ^ 63 →
        (((bp.makeBufList cap num).freeList cap).length : Int) = num
        ∧ (∀ b ∈ (bp.makeBufList cap num).freeList cap,
            b.Capacity = cap ∧ b.length = 0 ∧ b.head = 0)
        ∧ ((bp.makeBufList cap num).TotalMem : Int) = (bp.TotalMem + cap / 1024 * num) % 2 ^ 64
        ∧ ((bp.TotalMem : Int) + cap / 1024 * num < 2 ^ 64 →
            ((bp.makeBufList cap num).TotalMem : Int) = bp.TotalMem + cap / 1024 * num) := by
  refine ⟨MemPool_keys, by decide, by decide, ?_, by decide, by decide, ?_⟩
  · intro ck hck
    rw [initPool_freeList ck hck]
    refine ⟨?_, makeBufList.chain_members _ _⟩
    rw [makeBufList.chain_length]
    simp only [initCounts, List.mem_cons, List.mem_singleton, List.not_mem_nil, or_false] at hck
    rcases hck with h | h | h | h | h | h | h <;> subst h <;> rfl
  · intro bp cap num hnum hnum1 hcap hcap1
    have hT := makeBufList_TotalMem bp cap num hcap hcap1 (by omega) hnum1
    refine ⟨?_, ?_, hT, ?_⟩
    · rw [makeBufList_freeList, makeBufList.chain_length]
      omega
    · rw [makeBufList_freeList]
      exact makeBufList.chain_members _ _
    · intro h
      rw [hT]
      have : (0 : Int) ≤ cap / 1024 * num :=
        Int.mul_nonneg (Int.ediv_nonneg hcap (by norm_num)) (by omega)
      apply Int.emod_eq_of_lt <;> omega

theorem initPool_postcondition_witness :
    (((emptyPool.makeBufList 4096 3).freeList 4096).length : Int) = 3
    ∧ (∀ b ∈ (emptyPool.makeBufList 4096 3).freeList 4096,
        b.Capacity = 4096 ∧ b.length = 0 ∧ b.head = 0)
    ∧ ((emptyPool.makeBufList 4096 3).TotalMem : Int) = 12 :=
  have h := initPool_postcondition.2.2.2.2.2.2 emptyPool 4096 3 (by decide) (by decide)
    (by decide) (by decide)
  ⟨h.1, h.2.1, h.2.2.2 (by decide)⟩

/-! ## The paths of `Alloc` and `Revert` -/

/-- The four ways in which a call of `Alloc` returns. -/
theorem Alloc_cases {bp bp1 : BufPool} {N : Int} {r : Option Buf × Option String}
    (h : bp.Alloc N = some (bp1, r)) :
    (Alloc.index N = none ∧ bp1 = bp ∧ r = (none, some "Alloc size Too Large!"))
    ∨ ∃ c : Int, Alloc.index N = some c ∧ bp.PoolLock = false ∧
      ((bp.Pool.get c = none ∧ bp1 = { bp with PoolLock := true }
          ∧ r = (none, some "already use too many memory!\n"))
      ∨ (bp.Pool.get c = none
          ∧ bp1 = { Pool := bp.Pool, PoolLock := false,
                    TotalMem := uint64 ((bp.TotalMem : Int) + (uint64 (c.tdiv 1024) : Nat)) }
          ∧ r = (some (NewBuf c), none))
      ∨ ∃ target : Buf, bp.Pool.get c = some target
          ∧ bp1 = { Pool := bp.Pool.set c target.Next, PoolLock := false,
                    TotalMem := uint64 ((bp.TotalMem : Int) - (uint64 (c.tdiv 1024) : Nat)) }
          ∧ r = (some { target with Next := none }, none)) := by
  unfold BufPool.Alloc at h
  split at h
  · simp only [Option.some.injEq, Prod.mk.injEq] at h
    exact Or.inl ⟨by assumption, h.1.symm, h.2.symm⟩
  · rename_i index hidx
    right
    unfold BufPool.Lock at h
    split_ifs at h with hl
    have hl1 : bp.PoolLock = false := by simpa using hl
    refine ⟨index, hidx, hl1, ?_⟩
    simp only at h
    split at h
    · rename_i hget
      split_ifs at h
      · simp only [Option.some.injEq, Prod.mk.injEq] at h
        exact Or.inl ⟨hget, h.1.symm, h.2.symm⟩
      · simp only [Option.some.injEq, Prod.mk.injEq] at h
        exact Or.inr (Or.inl ⟨hget, h.1.symm, h.2.symm⟩)
    · rename_i targetBuf hget
      simp only [Option.some.injEq, Prod.mk.injEq] at h
      exact Or.inr (Or.inr ⟨targetBuf, hget, h.1.symm, h.2.symm⟩)

/-- The two ways in which a call of `Revert` returns. -/
theorem Revert_cases {bp bp1 : BufPool} {b : Buf} {r : Buf × Option String}
    (h : bp.Revert b = some (bp1, r)) :
    bp.PoolLock = false ∧
    ((bp.Pool b.Capacity = none ∧ bp1 = { bp with PoolLock := true } ∧ r.1 = b.Clear
        ∧ r.2 ≠ none)
    ∨ ∃ first : Option Buf, bp.Pool b.Capacity = some first
        ∧ bp1 = { Pool := bp.Pool.set b.Capacity
                    (some { b with head := 0, length := 0, Next := first }),
                  PoolLock := false,
                  TotalMem := uint64 ((bp.TotalMem : Int) + (uint64 (b.Capacity.tdiv 1024) : Nat)) }
        ∧ r = ({ b with head := 0, length := 0, Next := first }, none)) := by
  unfold BufPool.Revert BufPool.Lock at h
  split_ifs at h with hl
  have hl1 : bp.PoolLock = false := by simpa using hl
  refine ⟨hl1, ?_⟩
  simp only at h
  split at h
  · rename_i hkey
    simp only [Option.some.injEq, Prod.mk.injEq] at h
    left
    refine ⟨hkey, h.1.symm, ?_, ?_⟩
    · rw [← h.2]
    · rw [← h.2]; simp
  · rename_i first hfirst
    simp only [Option.some.injEq, Prod.mk.injEq] at h
    exact Or.inr ⟨first, hfirst, h.1.symm, h.2.symm⟩

theorem freeList_of_get_none {bp : BufPool} {c : Int} (h : bp.Pool.get c = none) :
    bp.freeList c = [] := by
  simp [BufPool.freeList, h]

theorem freeList_of_get_some {bp : BufPool} {c : Int} {b : Buf} (h : bp.Pool.get c = some b) :
    bp.freeList c = b.toList := by
  simp [BufPool.freeList, h]

theorem freeList_congr {bp bp1 : BufPool} {c : Int} (h : bp1.Pool c = bp.Pool c) :
    bp1.freeList c = bp.freeList c := by
  simp [BufPool.freeList, Pool.get, h]

/-- The list of a class after a pop is the tail of the list before it. -/
theorem freeList_pop {bp bp1 : BufPool} {c : Int} {target : Buf}
    (hget : bp.Pool.get c = some target) (hp : bp1.Pool = bp.Pool.set c target.Next) :
    bp.freeList c = target :: bp1.freeList c := by
  rw [freeList_of_get_some hget, Buf.toList_eq]
  congr 1
  simp only [BufPool.freeList, hp, Pool.get_set_self]

/-- The list of a class after a push is the new head followed by the list
before it (`first` is the entry found under the key). -/
theorem freeList_push {bp bp1 : BufPool} {c : Int} {first : Option Buf} {b : Buf}
    (hfirst : bp.Pool c = some first) (hb : b.Next = first)
    (hp : bp1.Pool = bp.Pool.set c (some b)) :
    bp1.freeList c = b :: bp.freeList c := by
  simp only [BufPool.freeList, hp, Pool.get_set_self]
  rw [Buf.toList_eq, hb]
  simp only [Pool.get, hfirst]

theorem freeList_set_other {bp bp1 : BufPool} {c k : Int} {v : Option Buf}
    (hp : bp1.Pool = bp.Pool.set c v) (hk : k ≠ c) : bp1.freeList k = bp.freeList k := by
  apply freeList_congr
  rw [hp]
  exact Pool.set_other _ _ _ _ hk

/-! ## Invariants of reachable pools -/

theorem uint64_lt (x : Int) : uint64 x < 2 ^ 64 := by
  have h := uint64_cast x
  have h2 : x % 2 ^ 64 < 2 ^ 64 := Int.emod_lt_of_pos _ (by norm_num)
  omega

/-- The counter of a reachable pool is in the range of a `uint64`. -/
theorem Reachable.TotalMem_lt {bp : BufPool} (h : Reachable bp) : bp.TotalMem < 2 ^ 64 := by
  induction h with
  | init => decide
  | alloc _ hstep ih =>
    rcases Alloc_cases hstep with ⟨_, h1, _⟩ | ⟨c, _, _, ⟨_, h1, _⟩ | ⟨_, h1, _⟩ | ⟨t, _, h1, _⟩⟩
    · rw [h1]; exact ih
    · rw [h1]; exact ih
    · rw [h1]; dsimp only; exact uint64_lt _
    · rw [h1]; dsimp only; exact uint64_lt _
  | revert _ hstep ih =>
    rcases Revert_cases hstep with ⟨_, ⟨_, h1, _⟩ | ⟨first, _, h1, _⟩⟩
    · rw [h1]; exact ih
    · rw [h1]; dsimp only; exact uint64_lt _

/-- In a reachable pool every buffer in the list of a class has the capacity
of the class. -/
theorem Reachable.capacity {bp : BufPool} (h : Reachable bp) :
    ∀ (c : Int) (b : Buf), b ∈ bp.freeList c → b.Capacity = c := by
  induction h with
  | init =>
    intro c b hb
    by_cases hc : c ∈ classes
    · simp only [classes, List.mem_cons, List.mem_singleton, List.not_mem_nil, or_false] at hc
      have key : ∀ ck ∈ initCounts, ∀ b ∈ MemPool.freeList ck.1, b.Capacity = ck.1 := by
        intro ck hck b hb
        have h1 := initPool_freeList ck hck
        rw [show BufPool.initPool emptyPool = MemPool from rfl] at h1
        rw [h1] at hb
        exact (makeBufList.chain_members _ _ b hb).1
      rcases hc with h | h | h | h | h | h | h <;> subst h
      · exact key (m4K, 5000) (by simp [initCounts]) b hb
      · exact key (m16K, 1000) (by simp [initCounts]) b hb
      · exact key (m64K, 500) (by simp [initCounts]) b hb
      · exact key (m256K, 200) (by simp [initCounts]) b hb
      · exact key (m1M, 50) (by simp [initCounts]) b hb
      · exact key (m4M, 20) (by simp [initCounts]) b hb
      · exact key (m8M, 10) (by simp [initCounts]) b hb
    · have hnone : MemPool.Pool c = none := by
        cases hp : MemPool.Pool c with
        | none => rfl
        | some v => exact absurd ((MemPool_keys c).mp (by simp [hp])) hc
      simp [BufPool.freeList, Pool.get, hnone] at hb
  | alloc _ hstep ih =>
    intro k b hb
    rcases Alloc_cases hstep with ⟨_, h1, _⟩ | ⟨c, _, _, ⟨_, h1, _⟩ | ⟨_, h1, _⟩ | ⟨t, hget, h1, _⟩⟩
    · rw [h1] at hb; exact ih k b hb
    · rw [h1] at hb; exact ih k b hb
    · rw [h1] at hb; exact ih k b hb
    · have hp : _ = _ := congrArg BufPool.Pool h1
      by_cases hk : k = c
      · subst hk
        apply ih k b
        rw [freeList_pop hget hp]
        exact List.mem_cons_of_mem _ hb
      · rw [freeList_set_other hp hk] at hb
        exact ih k b hb
  | revert _ hstep ih =>
    rename_i bp0 bp2 buf r _
    intro k b hb
    rcases Revert_cases hstep with ⟨_, ⟨_, h1, _⟩ | ⟨first, hfirst, h1, _⟩⟩
    · rw [h1] at hb; exact ih k b hb
    · have hp : _ = _ := congrArg BufPool.Pool h1
      by_cases hk : k = buf.Capacity
      · subst hk
        rw [freeList_push hfirst rfl hp] at hb
        rcases List.mem_cons.mp hb with hb | hb
        · rw [hb]
        · exact ih _ b hb
      · rw [freeList_set_other hp hk] at hb
        exact ih k b hb

theorem sum_map_update {L : List Int} (hnd : L.Nodup) {c : Int} (hc : c ∈ L) (f g : Int → Nat)
    (d : Nat) (hoth : ∀ k, k ≠ c → g k = f k) (hcd : g c = f c + d) :
    (L.map g).sum = (L.map f).sum + d := by
  induction L with
  | nil => simp at hc
  | cons a t ih =>
    rw [List.nodup_cons] at hnd
    simp only [List.map_cons, List.sum_cons]
    by_cases hca : c = a
    · subst hca
      have ht : t.map g = t.map f := by
        apply List.map_congr_left
        intro k hk
        exact hoth k (fun h => hnd.1 (h ▸ hk))
      rw [ht, hcd]
      omega
    · have hct : c ∈ t := by
        rcases List.mem_cons.mp hc with h | h
        · exact absurd h hca
        · exact h
      rw [ih hnd.2 hct, hoth a (fun h => hca h.symm)]
      omega

theorem sum_map_same {L : List Int} (f g : Int → Nat) (h : ∀ k, g k = f k) :
    (L.map g).sum = (L.map f).sum := by
  have : g = f := funext h
  rw [this]

/-- One more buffer in the list of class `c` is `c / 1024` more resident KB. -/
theorem residentKB_grow {bp bp1 : BufPool} {c : Int} (hc : c ∈ classes)
    (hoth : ∀ k, k ≠ c → bp1.freeList k = bp.freeList k)
    (hlen : (bp1.freeList c).length = (bp.freeList c).length + 1) :
    bp1.residentKB = bp.residentKB + (c / 1024).toNat := by
  unfold BufPool.residentKB
  apply sum_map_update (by decide) hc
  · intro k hk
    rw [hoth k hk]
  · rw [hlen]
    ring

theorem residentKB_same {bp bp1 : BufPool} (h : ∀ k, bp1.freeList k = bp.freeList k) :
    bp1.residentKB = bp.residentKB := by
  unfold BufPool.residentKB
  apply sum_map_same
  intro k
  rw [h k]

/-! ## Borrow/return rounds -/

/-- The path of `Revert` through lines 178-184, as an equation. -/
theorem Revert_eq_push (bp : BufPool) (b : Buf) (first : Option Buf)
    (hlock : bp.PoolLock = false) (hfirst : bp.Pool b.Capacity = some first) :
    bp.Revert b
      = some ({ Pool := bp.Pool.set b.Capacity
                  (some { b with head := 0, length := 0, Next := first }),
                PoolLock := false,
                TotalMem := uint64 ((bp.TotalMem : Int) + (uint64 (b.Capacity.tdiv 1024) : Nat)) },
              { b with head := 0, length := 0, Next := first }, none) := by
  simp only [BufPool.Revert, BufPool.Lock, hlock, Buf.Clear, BufPool.Unlock]
  simp [hfirst]

theorem uint64_sub_add (T k : Nat) (hT : T < 2 ^ 64) :
    uint64 ((uint64 ((T : Int) - (k : Int)) : Nat) + (k : Int)) = T := by
  have h : ((uint64 ((uint64 ((T : Int) - (k : Int)) : Nat) + (k : Int)) : Nat) : Int) = T := by
    rw [uint64_cast, uint64_cast, Int.emod_add_emod, sub_add_cancel]
    apply Int.emod_eq_of_lt <;> omega
  exact_mod_cast h

theorem allocs_reachable {bp : BufPool} (h : Reachable bp) (N : Int) :
    ∀ (k : Nat) (q : BufPool), bp.allocs N k = some q → Reachable q := by
  intro k
  induction k with
  | zero =>
    intro q hq
    simp only [BufPool.allocs, Option.some.injEq] at hq
    rw [← hq]; exact h
  | succ k ih =>
    intro q hq
    simp only [BufPool.allocs, Option.bind_eq_some, Option.map_eq_some'] at hq
    obtain ⟨q0, hq0, r, hr, hr1⟩ := hq
    obtain ⟨q1, r1⟩ := r
    simp only at hr1
    subst hr1
    exact Reachable.alloc (ih q0 hq0) hr

theorem drainedPool_reachable : Reachable drainedPool :=
  allocs_reachable Reachable.init 8388608 10 drainedPool rfl

/-- A round on a class whose list holds a buffer, in a reachable pool with
the lock free: both calls succeed and the round leaves the lock free, the
list as long as before and not empty, and the counter as before. -/
theorem cycle_pop {bp : BufPool} {N c : Int} {target : Buf} (hr : Reachable bp)
    (hlock : bp.PoolLock = false) (hsel : Alloc.index N = some c)
    (hget : bp.Pool.get c = some target) :
    ∃ (bp1 bp2 : BufPool) (buf2 : Buf),
      bp.Alloc N = some (bp1, some { target with Next := none }, none)
      ∧ bp1.Revert { target with Next := none } = some (bp2, buf2, none)
      ∧ bp.cycle N = some bp2
      ∧ Reachable bp2 ∧ bp2.PoolLock = false ∧ bp2.Pool.get c = some buf2
      ∧ (bp2.freeList c).length = (bp.freeList c).length
      ∧ bp2.TotalMem = bp.TotalMem := by
  have hal := Alloc_eq_pop bp N c target hsel hlock hget
  have hcap : target.Capacity = c := by
    apply hr.capacity c target
    rw [freeList_of_get_some hget, Buf.toList_eq]
    exact List.mem_cons_self _ _
  have hkey : (bp.Pool.set c target.Next) ({ target with Next := none } : Buf).Capacity
      = some target.Next := by
    simp [Pool.set, hcap]
  have hrev := Revert_eq_push
    { Pool := bp.Pool.set c target.Next, PoolLock := false,
      TotalMem := uint64 ((bp.TotalMem : Int) - (uint64 (c.tdiv 1024) : Nat)) }
    ({ target with Next := none } : Buf) target.Next rfl hkey
  refine ⟨_, _, _, hal, hrev, ?_, ?_, rfl, ?_, ?_, ?_⟩
  · simp only [BufPool.cycle, hal, hrev]
  · exact Reachable.revert (Reachable.alloc hr hal) hrev
  · simp only [hcap]
    exact Pool.get_set_self _ _ _
  · simp only [BufPool.freeList, hget, hcap, Pool.get_set_self]
    rw [Buf.toList_eq target, Buf.toList_eq]
    rfl
  · simp only [hcap]
    exact uint64_sub_add _ _ hr.TotalMem_lt

theorem cycles_pop {bp : BufPool} {N c : Int} (hr : Reachable bp)
    (hlock : bp.PoolLock = false) (hsel : Alloc.index N = some c)
    (hne : bp.Pool.get c ≠ none) (M : Nat) :
    ∃ q : BufPool, bp.cycles N M = some q ∧ Reachable q ∧ q.PoolLock = false
      ∧ q.Pool.get c ≠ none
      ∧ (q.freeList c).length = (bp.freeList c).length ∧ q.TotalMem = bp.TotalMem := by
  induction M with
  | zero => exact ⟨bp, rfl, hr, hlock, hne, rfl, rfl⟩
  | succ M ih =>
    obtain ⟨q, hq, hqr, hql, hqne, hqlen, hqT⟩ := ih
    obtain ⟨t, ht⟩ := Option.ne_none_iff_exists'.mp hqne
    obtain ⟨_, q2, buf2, _, _, hcyc, hr2, hl2, hg2, hlen2, hT2⟩ := cycle_pop hqr hql hsel ht
    refine ⟨q2, ?_, hr2, hl2, ?_, hlen2.trans hqlen, hT2.trans hqT⟩
    · simp only [BufPool.cycles, hq, Option.some_bind, hcyc]
    · rw [hg2]; simp

/-- C14, as stated, fails on a class whose list is empty.  `drainedPool` is
reachable (ten calls of `Alloc(8388608)` on the initial pool); the list of
class 8388608 is empty and the counter is 540320.  `Alloc(8388608)` succeeds
with a new buffer, and after `Revert` of that buffer the list holds one
buffer and the counter is 556704: neither is as before the `Alloc`. -/
theorem cycle_on_drained_class_counterexample :
    Reachable drainedPool
    ∧ (drainedPool.freeList 8388608).length = 0
    ∧ drainedPool.TotalMem = 540320
    ∧ (drainedPool.Alloc 8388608).map (fun r => (r.2.1.map Buf.Capacity, r.2.2))
        = some (some 8388608, none)
    ∧ (drainedPool.cycle 8388608).map (fun q => ((q.freeList 8388608).length, q.TotalMem))
        = some (1, 556704) := by
  refine ⟨drainedPool_reachable, by decide, by decide, by decide, by decide⟩

/-- C14, amended: in a reachable pool, let `Alloc(N)` succeed with selected
class `c`.  If the list of `c` held a buffer, `Revert` of the returned
buffer succeeds and leaves the length of the list of `c` and `TotalMem` as
they were before the `Alloc`, and any number `M` of such rounds leaves both
as they were.  If the list of `c` was empty, `Revert` of the returned (new)
buffer succeeds and leaves the list of `c` with one buffer. -/
theorem cycle_neutral_on_nonempty (bp bp1 : BufPool) (N c : Int) (buf : Buf)
    (hr : Reachable bp) (hsel : Alloc.index N = some c)
    (hal : bp.Alloc N = some (bp1, some buf, none)) :
    (bp.Pool.get c ≠ none →
      (∃ (bp2 : BufPool) (buf2 : Buf), bp1.Revert buf = some (bp2, buf2, none)
        ∧ (bp2.freeList c).length = (bp.freeList c).length ∧ bp2.TotalMem = bp.TotalMem)
      ∧ ∀ M : Nat, ∃ q : BufPool, bp.cycles N M = some q
          ∧ (q.freeList c).length = (bp.freeList c).length ∧ q.TotalMem = bp.TotalMem)
    ∧ (bp.Pool.get c = none →
      ∃ (bp2 : BufPool) (buf2 : Buf), bp1.Revert buf = some (bp2, buf2, none)
        ∧ (bp.freeList c).length = 0 ∧ (bp2.freeList c).length = 1) := by
  have hlock : bp.PoolLock = false := by
    rcases Alloc_cases hal with ⟨h, _⟩ | ⟨_, _, h, _⟩
    · rw [hsel] at h; exact absurd h (by simp)
    · exact h
  constructor
  · intro hne
    refine ⟨?_, fun M => ?_⟩
    · obtain ⟨t, ht⟩ := Option.ne_none_iff_exists'.mp hne
      obtain ⟨q1, q2, buf2, hal2, hrev2, _, _, _, _, hlen2, hT2⟩ := cycle_pop hr hlock hsel ht
      rw [hal] at hal2
      simp only [Option.some.injEq, Prod.mk.injEq] at hal2
      obtain ⟨h1, h2, _⟩ := hal2
      subst h1 h2
      exact ⟨q2, buf2, hrev2, hlen2, hT2⟩
    · obtain ⟨q, hq, _, _, _, hlen, hT⟩ := cycles_pop hr hlock hsel hne M
      exact ⟨q, hq, hlen, hT⟩
  · intro hnone
    have hal2 := hal
    rcases Alloc_cases hal2 with ⟨h, _⟩ | ⟨c2, hc2, _, ⟨_, _, h3⟩ | ⟨_, hbp1, h3⟩ | ⟨t, ht, _⟩⟩
    · rw [hsel] at h; exact absurd h (by simp)
    · simp at h3
    · rw [hsel] at hc2
      simp only [Option.some.injEq] at hc2
      subst hc2
      simp only [Prod.mk.injEq, Option.some.injEq, and_true] at h3
      subst h3 hbp1
      have hcls : c ∈ classes := by
        rcases Alloc.index_mem hsel with h | h | h | h | h | h <;> subst h <;> decide
      obtain ⟨first, hfirst⟩ := Option.isSome_iff_exists.mp ((hr.keys c).mpr hcls)
      have hfn : first = none := by
        simpa [Pool.get, hfirst] using hnone
      subst hfn
      have hrev := Revert_eq_push
        { Pool := bp.Pool, PoolLock := false,
          TotalMem := uint64 ((bp.TotalMem : Int) + (uint64 (c.tdiv 1024) : Nat)) }
        (NewBuf c) none rfl hfirst
      refine ⟨_, _, hrev, by rw [freeList_of_get_none hnone]; rfl, ?_⟩
      simp only [BufPool.freeList, NewBuf, Pool.get_set_self]
      rw [Buf.toList_eq]
      rfl
    · rw [hsel] at hc2
      simp only [Option.some.injEq] at hc2
      subst hc2
      rw [hnone] at ht
      simp at ht

theorem cycle_neutral_on_nonempty_witness :
    ∃ q : BufPool, MemPool.cycles 100 3 = some q
      ∧ (q.freeList 4096).length = (MemPool.freeList 4096).length
      ∧ q.TotalMem = MemPool.TotalMem :=
  ((cycle_neutral_on_nonempty MemPool _ 100 4096 (NewBuf 4096) Reachable.init (by decide)
    rfl).1 (fun h => absurd (congrArg Option.isSome h) (by decide))).2 3

/-! ## The usage counter -/

/-- The resident KB written out over the seven classes. -/
theorem residentKB_eq (bp : BufPool) :
    bp.residentKB
      = (bp.freeList 4096).length * 4 + (bp.freeList 16384).length * 16
        + (bp.freeList 655535).length * 640 + (bp.freeList 262144).length * 256
        + (bp.freeList 1048576).length * 1024 + (bp.freeList 4194304).length * 4096
        + (bp.freeList 8388608).length * 8192 := by
  have h1 : ((4096 : Int) / 1024).toNat = 4 := by decide
  have h2 : ((16384 : Int) / 1024).toNat = 16 := by decide
  have h3 : ((655535 : Int) / 1024).toNat = 640 := by decide
  have h4 : ((262144 : Int) / 1024).toNat = 256 := by decide
  have h5 : ((1048576 : Int) / 1024).toNat = 1024 := by decide
  have h6 : ((4194304 : Int) / 1024).toNat = 4096 := by decide
  have h7 : ((8388608 : Int) / 1024).toNat = 8192 := by decide
  simp only [BufPool.residentKB, classes, List.map_cons, List.map_nil, List.sum_cons,
    List.sum_nil, m4K, m16K, m64K, m256K, m1M, m4M, m8M, h1, h2, h3, h4, h5, h6, h7]
  omega

theorem MemPool_freeList_length :
    (MemPool.freeList 4096).length = 5000 ∧ (MemPool.freeList 16384).length = 1000
    ∧ (MemPool.freeList 655535).length = 500 ∧ (MemPool.freeList 262144).length = 200
    ∧ (MemPool.freeList 1048576).length = 50 ∧ (MemPool.freeList 4194304).length = 20
    ∧ (MemPool.freeList 8388608).length = 10 := by
  have key : ∀ ck ∈ initCounts, (MemPool.freeList ck.1).length = ck.2 := by
    intro ck hck
    have h1 := initPool_freeList ck hck
    rw [show BufPool.initPool emptyPool = MemPool from rfl] at h1
    rw [h1, makeBufList.chain_length]
    simp only [initCounts, List.mem_cons, List.mem_singleton, List.not_mem_nil, or_false] at hck
    rcases hck with h | h | h | h | h | h | h <;> subst h <;> rfl
  exact ⟨key (m4K, 5000) (by simp [initCounts]), key (m16K, 1000) (by simp [initCounts]),
    key (m64K, 500) (by simp [initCounts]), key (m256K, 200) (by simp [initCounts]),
    key (m1M, 50) (by simp [initCounts]), key (m4M, 20) (by simp [initCounts]),
    key (m8M, 10) (by simp [initCounts])⟩

/-- `Alloc` leaves alone the list of every class that it did not select. -/
theorem Alloc_freeList_other {bp bp1 : BufPool} {N : Int} {r : Option Buf × Option String}
    (h : bp.Alloc N = some (bp1, r)) (k : Int) (hk : Alloc.index N ≠ some k) :
    bp1.Pool k = bp.Pool k := by
  rcases Alloc_cases h with ⟨_, h1, _⟩ | ⟨c, hc, _, ⟨_, h1, _⟩ | ⟨_, h1, _⟩ | ⟨t, _, h1, _⟩⟩
  · rw [h1]
  · rw [h1]
  · rw [h1]
  · rw [h1]
    apply Pool.set_other
    intro hkc
    exact hk (hkc ▸ hc)

theorem allocs_freeList_other {bp : BufPool} (N k : Int) (hk : Alloc.index N ≠ some k) :
    ∀ (n : Nat) (q : BufPool), bp.allocs N n = some q → q.freeList k = bp.freeList k := by
  intro n
  induction n with
  | zero =>
    intro q hq
    simp only [BufPool.allocs, Option.some.injEq] at hq
    rw [← hq]
  | succ n ih =>
    intro q hq
    simp only [BufPool.allocs, Option.bind_eq_some, Option.map_eq_some'] at hq
    obtain ⟨q0, hq0, r, hr, hr1⟩ := hq
    obtain ⟨q1, r1⟩ := r
    simp only at hr1
    subst hr1
    rw [freeList_congr (Alloc_freeList_other hr k hk), ih q0 hq0]

/-- C15: the counter is not always the KB held in the free lists.  The pool
after eleven calls of `Alloc(8388608)` on the initial pool is reachable; the
first ten calls empty the list of class 8388608, the eleventh creates a
buffer and adds its 8192 KB to the counter although no list holds it: the
counter is 548512 while the lists hold 540320 KB.  (On the initial pool both
are 622240.) -/
theorem TotalMem_counts_new_buffer :
    MemPool.TotalMem = 622240 ∧ MemPool.residentKB = 622240
    ∧ ∃ q : BufPool, MemPool.allocs 8388608 11 = some q ∧ Reachable q
        ∧ q.TotalMem = 548512 ∧ q.residentKB = 540320 := by
  obtain ⟨l1, l2, l3, l4, l5, l6, l7⟩ := MemPool_freeList_length
  refine ⟨by decide, ?_, (MemPool.allocs 8388608 11).getD emptyPool, rfl,
    allocs_reachable Reachable.init 8388608 11 _ rfl, by decide, ?_⟩
  · rw [residentKB_eq, l1, l2, l3, l4, l5, l6, l7]
  · have ho : ∀ k : Int, Alloc.index 8388608 ≠ some k →
        BufPool.freeList ((MemPool.allocs 8388608 11).getD emptyPool) k = MemPool.freeList k :=
      fun k hk => allocs_freeList_other 8388608 k hk 11 _ rfl
    have h8 : (BufPool.freeList ((MemPool.allocs 8388608 11).getD emptyPool) 8388608).length
        = 0 := by decide
    rw [residentKB_eq, ho 4096 (by decide), ho 16384 (by decide), ho 655535 (by decide),
      ho 262144 (by decide), ho 1048576 (by decide), ho 4194304 (by decide), h8,
      l1, l2, l3, l4, l5, l6]

theorem ReachableNoWrap.reachable {bp : BufPool} (h : ReachableNoWrap bp) : Reachable bp := by
  induction h with
  | init => exact Reachable.init
  | alloc _ hstep _ ih => exact Reachable.alloc ih hstep
  | revert _ hstep _ ih => exact Reachable.revert ih hstep

theorem classes_kb_toNat {c : Int} (h : c ∈ classes) :
    uint64 (c.tdiv 1024) = (c / 1024).toNat := by
  have h1 := classes_kb h
  omega

theorem Alloc.index_classes {N c : Int} (h : Alloc.index N = some c) : c ∈ classes := by
  rcases Alloc.index_mem h with h | h | h | h | h | h <;> subst h <;> decide

/-- A list that holds a buffer accounts for at least the KB of its class. -/
theorem residentKB_ge {bp : BufPool} {c : Int} {target : Buf} (hc : c ∈ classes)
    (hget : bp.Pool.get c = some target) :
    bp.residentKB
      = BufPool.residentKB { Pool := bp.Pool.set c target.Next, PoolLock := false,
                             TotalMem := 0 } + (c / 1024).toNat := by
  apply residentKB_grow hc
  · intro k hk
    exact (freeList_set_other rfl hk).symm
  · rw [@freeList_pop bp { Pool := bp.Pool.set c target.Next, PoolLock := false, TotalMem := 0 }
      c target hget rfl]
    rfl

/-- Without upward wrap the counter is at least the KB held in the lists. -/
theorem ReachableNoWrap.resident_le {bp : BufPool} (h : ReachableNoWrap bp) :
    bp.residentKB ≤ bp.TotalMem := by
  induction h with
  | init =>
    obtain ⟨l1, l2, l3, l4, l5, l6, l7⟩ := MemPool_freeList_length
    rw [residentKB_eq, l1, l2, l3, l4, l5, l6, l7]
    decide
  | alloc hprev hstep hnw ih =>
    rename_i bp0 bp2 N r
    rcases Alloc_cases hstep with ⟨_, h1, _⟩ | ⟨c, hc, _, ⟨_, h1, _⟩ | ⟨hnone, h1, _⟩ | ⟨t, hget, h1, _⟩⟩
    · rw [h1]; exact ih
    · rw [h1]; exact ih
    · have hcls := Alloc.index_classes hc
      have hkb := classes_kb hcls
      have hlt := hnw c hc hnone
      have hT : ((bp2.TotalMem : Nat) : Int) = bp0.TotalMem + c / 1024 := by
        rw [h1]
        dsimp only
        rw [uint64_cast, hkb]
        apply Int.emod_eq_of_lt <;> omega
      have hres : bp2.residentKB = bp0.residentKB := by
        apply residentKB_same
        intro k
        rw [h1]
        rfl
      rw [hres]
      omega
    · have hcls := Alloc.index_classes hc
      have hkb := classes_kb hcls
      have hge := residentKB_ge hcls hget
      have hres : bp2.residentKB
          = BufPool.residentKB { Pool := bp0.Pool.set c t.Next, PoolLock := false,
                                 TotalMem := 0 } := by
        apply residentKB_same
        intro k
        rw [h1]
        rfl
      have hT : ((bp2.TotalMem : Nat) : Int) = bp0.TotalMem - c / 1024 := by
        rw [h1]
        dsimp only
        rw [uint64_cast, hkb]
        have := hprev.reachable.TotalMem_lt
        apply Int.emod_eq_of_lt <;> omega
      rw [hres]
      omega
  | revert hprev hstep hnw ih =>
    rename_i bp0 bp2 buf r
    rcases Revert_cases hstep with ⟨_, ⟨_, h1, _⟩ | ⟨first, hfirst, h1, _⟩⟩
    · rw [h1]; exact ih
    · have hcls : buf.Capacity ∈ classes :=
        (hprev.reachable.keys buf.Capacity).mp (by simp [hfirst])
      have hkb := classes_kb hcls
      have hlt := hnw (by simp [hfirst])
      have hT : ((bp2.TotalMem : Nat) : Int) = bp0.TotalMem + buf.Capacity / 1024 := by
        rw [h1]
        dsimp only
        rw [uint64_cast, hkb]
        apply Int.emod_eq_of_lt <;> omega
      have hp : bp2.Pool = bp0.Pool.set buf.Capacity
          (some { buf with head := 0, length := 0, Next := first }) := by rw [h1]
      have hres : bp2.residentKB = bp0.residentKB + (buf.Capacity / 1024).toNat := by
        apply residentKB_grow hcls
        · intro k hk
          exact freeList_set_other hp hk
        · rw [freeList_push hfirst rfl hp]
          rfl
      rw [hres]
      omega

/-- C20: in every pool reached from the initial pool by calls of `Alloc` and
`Revert` (on any buffers) in which the counter does not wrap upward,
`TotalMem` is at least the sum over the classes of the length of the list
times `c / 1024`.  So whenever `Alloc` pops from the list of a class `c`
that holds a buffer, `TotalMem >= c / 1024`, and the subtraction does not
wrap: the counter after the call is `TotalMem - c / 1024`. -/
theorem TotalMem_never_underflows (bp : BufPool) (h : ReachableNoWrap bp) :
    bp.residentKB ≤ bp.TotalMem
    ∧ ∀ (N c : Int) (target : Buf), Alloc.index N = some c → bp.Pool.get c = some target →
        c / 1024 ≤ bp.TotalMem
        ∧ ∀ (bp1 : BufPool) (r : Option Buf × Option String), bp.Alloc N = some (bp1, r) →
            (bp1.TotalMem : Int) = bp.TotalMem - c / 1024 := by
  have hle := h.resident_le
  refine ⟨hle, ?_⟩
  intro N c target hsel hget
  have hcls := Alloc.index_classes hsel
  have hkb := classes_kb hcls
  have hge := residentKB_ge hcls hget
  have hc1 : c / 1024 ≤ (bp.TotalMem : Int) := by omega
  refine ⟨hc1, ?_⟩
  intro bp1 r hal
  rcases Alloc_cases hal with ⟨h0, _⟩ | ⟨c2, hc2, hl, _⟩
  · rw [hsel] at h0; simp at h0
  · rw [Alloc_eq_pop bp N c target hsel hl hget] at hal
    simp only [Option.some.injEq, Prod.mk.injEq] at hal
    rw [← hal.1]
    dsimp only
    rw [uint64_cast, hkb]
    have := h.reachable.TotalMem_lt
    apply Int.emod_eq_of_lt <;> omega

theorem TotalMem_never_underflows_witness :
    MemPool.residentKB ≤ MemPool.TotalMem
    ∧ ∀ (N c : Int) (target : Buf), Alloc.index N = some c → MemPool.Pool.get c = some target →
        c / 1024 ≤ MemPool.TotalMem
        ∧ ∀ (bp1 : BufPool) (r : Option Buf × Option String), MemPool.Alloc N = some (bp1, r) →
            (bp1.TotalMem : Int) = MemPool.TotalMem - c / 1024 :=
  TotalMem_never_underflows MemPool ReachableNoWrap.init

/-! ## The lock -/

/-- C17: the error returns of `Revert` and `Alloc` leave the lock held.  On
the initial pool (lock free) `Revert` of a buffer of capacity 65536, which is
not a class, returns an error and a pool whose lock is held; an `Alloc(1)`
or a `Revert` of a 4096-byte buffer on that pool never returns.  On
`nearLimitPool` (lock free, empty lists, counter 4 KB under the limit)
`Alloc(100)` returns the over-budget error and a pool whose lock is held,
and the next `Alloc(100)` never returns. -/
theorem error_return_leaves_lock_held :
    MemPool.PoolLock = false
    ∧ (MemPool.Revert (NewBuf 65536)).map (fun r => (r.1.PoolLock, r.2.2.isSome))
        = some (true, true)
    ∧ ((MemPool.Revert (NewBuf 65536)).bind fun r => r.1.Alloc 1).isNone = true
    ∧ ((MemPool.Revert (NewBuf 65536)).bind fun r => r.1.Revert (NewBuf 4096)).isNone = true
    ∧ nearLimitPool.PoolLock = false
    ∧ (nearLimitPool.Alloc 100).map (fun r => (r.1.PoolLock, r.2.1.isSome, r.2.2.isSome))
        = some (true, false, true)
    ∧ ((nearLimitPool.Alloc 100).bind fun r => r.1.Alloc 100).isNone = true := by
  refine ⟨by decide, by decide, by decide, by decide, by decide, by decide, by decide⟩

/-! ## The order of the classes -/

/-- C18: the seven classes, in the order in which `Alloc` tests them, start
at 4096 and end at 8388608 but are not strictly ascending: the third,
`m64K = 655535`, is above the fourth, `m256K = 262144`. -/
theorem classes_not_ascending :
    classes = [4096, 16384, 655535, 262144, 1048576, 4194304, 8388608]
    ∧ classes.length = 7 ∧ classes.head? = some 4096 ∧ classes.getLast? = some 8388608
    ∧ m256K < m64K
    ∧ ¬ classes.Pairwise (fun a b => a < b) := by
  refine ⟨by decide, by decide, by decide, by decide, by decide, by decide⟩

/-! ## The pool with addresses: initialisation -/

namespace ptr

theorem Heap.set_self (h : Heap) (a : Nat) (b : Buf) : (h.set a b) a = b := by
  simp [Heap.set]

theorem Heap.set_away (h : Heap) (a : Nat) (b : Buf) (x : Nat) (hx : x ≠ a) :
    (h.set a b) x = h x := by
  simp [Heap.set, hx]

theorem Pool.get_set_same (p : Pool) (k : Int) (v : Option Nat) : (p.set k v).get k = v := by
  simp [Pool.get, Pool.set]

theorem Pool.set_ne (p : Pool) (k : Int) (v : Option Nat) (j : Int) (h : j ≠ k) :
    (p.set k v) j = p j := by
  simp [Pool.set, h]

theorem Pool.get_set_other (p : Pool) (k : Int) (v : Option Nat) (j : Int) (h : j ≠ k) :
    (p.set k v).get j = p.get j := by
  simp [Pool.get, Pool.set, h]

/-- The state after one round of the loop of `makeBufList`. -/
theorem makeBufList.loop_succ (cap : Int) (k : Nat) (bp : BufPool) (prev : Nat) :
    makeBufList.loop cap (k + 1) bp prev
      = makeBufList.loop cap k
          { heap := (bp.heap.set bp.brk
              { Capacity := cap, length := 0, head := 0, Next := none,
                data := c.Malloc cap }).set prev
              { (bp.heap.set bp.brk
                  { Capacity := cap, length := 0, head := 0, Next := none,
                    data := c.Malloc cap }) prev with Next := some bp.brk },
            brk := bp.brk + 1, Pool := bp.Pool, PoolLock := bp.PoolLock,
            TotalMem := bp.TotalMem }
          bp.brk := rfl

/-- The loop of `makeBufList` writes only the heap and moves `brk` by one
address for each round. -/
theorem makeBufList.loop_frame (cap : Int) (k : Nat) :
    ∀ (bp : BufPool) (prev : Nat),
      (makeBufList.loop cap k bp prev).Pool = bp.Pool
      ∧ (makeBufList.loop cap k bp prev).PoolLock = bp.PoolLock
      ∧ (makeBufList.loop cap k bp prev).TotalMem = bp.TotalMem
      ∧ (makeBufList.loop cap k bp prev).brk = bp.brk + k := by
  induction k with
  | zero => intro bp prev; exact ⟨rfl, rfl, rfl, rfl⟩
  | succ k ih =>
    intro bp prev
    rw [makeBufList.loop_succ]
    obtain ⟨h1, h2, h3, h4⟩ := ih
      { heap := (bp.heap.set bp.brk
          { Capacity := cap, length := 0, head := 0, Next := none,
            data := c.Malloc cap }).set prev
          { (bp.heap.set bp.brk
              { Capacity := cap, length := 0, head := 0, Next := none,
                data := c.Malloc cap }) prev with Next := some bp.brk },
        brk := bp.brk + 1, Pool := bp.Pool, PoolLock := bp.PoolLock,
        TotalMem := bp.TotalMem }
      bp.brk
    refine ⟨h1, h2, h3, ?_⟩
    rw [h4]
    show bp.brk + 1 + k = bp.brk + (k + 1)
    omega

/-- The loop of `makeBufList` leaves alone every record that existed before
it, except the one to which it links the first new record. -/
theorem makeBufList.loop_heap (cap : Int) (k : Nat) :
    ∀ (bp : BufPool) (prev a : Nat), a < bp.brk → a ≠ prev →
      (makeBufList.loop cap k bp prev).heap a = bp.heap a := by
  induction k with
  | zero => intro bp prev a _ _; rfl
  | succ k ih =>
    intro bp prev a ha hp
    rw [makeBufList.loop_succ]
    have hlt : a < bp.brk + 1 := by omega
    have hne : a ≠ bp.brk := by omega
    rw [ih _ bp.brk a hlt hne]
    show ((bp.heap.set bp.brk _).set prev _) a = bp.heap a
    rw [Heap.set_away _ _ _ _ hp, Heap.set_away _ _ _ _ hne]

/-- After `k` rounds of the loop the list that starts at `prev` is `prev`
followed by the `k` new records, at consecutive addresses. -/
theorem makeBufList.loop_isList (cap : Int) (k : Nat) :
    ∀ (bp : BufPool) (prev : Nat), prev < bp.brk → (bp.heap prev).Next = none →
      IsList (makeBufList.loop cap k bp prev).heap (some prev)
        (prev :: List.range' bp.brk k) := by
  induction k with
  | zero =>
    intro bp prev _ hn
    simp only [makeBufList.loop, List.range'_zero]
    apply IsList.cons
    rw [hn]
    exact IsList.nil
  | succ k ih =>
    intro bp prev hp hn
    rw [makeBufList.loop_succ]
    have hpb : prev ≠ bp.brk := by omega
    have hbp : bp.brk ≠ prev := by omega
    have h1 := ih
      { heap := (bp.heap.set bp.brk
          { Capacity := cap, length := 0, head := 0, Next := none,
            data := c.Malloc cap }).set prev
          { (bp.heap.set bp.brk
              { Capacity := cap, length := 0, head := 0, Next := none,
                data := c.Malloc cap }) prev with Next := some bp.brk },
        brk := bp.brk + 1, Pool := bp.Pool, PoolLock := bp.PoolLock,
        TotalMem := bp.TotalMem }
      bp.brk (Nat.lt_succ_self _)
      (by
        show (((bp.heap.set bp.brk _).set prev _) bp.brk).Next = none
        rw [Heap.set_away _ _ _ _ hbp, Heap.set_self])
    have h2 := makeBufList.loop_heap cap k
      { heap := (bp.heap.set bp.brk
          { Capacity := cap, length := 0, head := 0, Next := none,
            data := c.Malloc cap }).set prev
          { (bp.heap.set bp.brk
              { Capacity := cap, length := 0, head := 0, Next := none,
                data := c.Malloc cap }) prev with Next := some bp.brk },
        brk := bp.brk + 1, Pool := bp.Pool, PoolLock := bp.PoolLock,
        TotalMem := bp.TotalMem }
      bp.brk prev (Nat.lt_succ_of_lt hp) hpb
    apply IsList.cons
    rw [h2]
    simp only [Heap.set_self]
    rw [List.range'_succ]
    exact h1

/-- A list stays the list it is when the `Next` links of its records are
not changed. -/
theorem IsList.transfer {h h1 : Heap} {p : Option Nat} {l : List Nat} (hl : IsList h p l)
    (hsame : ∀ a ∈ l, (h1 a).Next = (h a).Next) : IsList h1 p l := by
  induction hl with
  | nil => exact IsList.nil
  | cons _ ih =>
    apply IsList.cons
    rw [hsame _ (List.mem_cons_self _ _)]
    exact ih (fun a ha => hsame a (List.mem_cons_of_mem _ ha))

theorem IsList.mem_inList {h : Heap} {p : Option Nat} {l : List Nat} (hl : IsList h p l) :
    ∀ a ∈ l, InList h p a := by
  induction hl with
  | nil => intro a ha; simp at ha
  | cons _ ih =>
    intro a ha
    rcases List.mem_cons.mp ha with ha | ha
    · rw [ha]; exact InList.head _
    · exact InList.next (ih a ha)

/-- Only the links decide what is in a list: membership is the same in two
heaps that agree on `Next` along the list. -/
theorem InList.carry {h h1 : Heap} {p : Option Nat} {a : Nat} (hin : InList h p a)
    (hsame : ∀ x, InList h p x → (h1 x).Next = (h x).Next) : InList h1 p a := by
  induction hin with
  | head a => exact InList.head a
  | next _ ih =>
    rename_i x y hxy
    apply InList.next
    rw [hsame x (InList.head x)]
    exact ih (fun z hz => hsame z (InList.next hz))

theorem makeBufList_Pool (bp : BufPool) (cap num : Int) :
    (bp.makeBufList cap num).Pool = bp.Pool.set cap (some bp.brk) :=
  (makeBufList.loop_frame cap (num - 1).toNat _ _).1

theorem makeBufList_PoolLock (bp : BufPool) (cap num : Int) :
    (bp.makeBufList cap num).PoolLock = bp.PoolLock :=
  (makeBufList.loop_frame cap (num - 1).toNat _ _).2.1

theorem makeBufList_brk (bp : BufPool) (cap num : Int) :
    (bp.makeBufList cap num).brk = bp.brk + 1 + (num - 1).toNat :=
  (makeBufList.loop_frame cap (num - 1).toNat _ _).2.2.2

/-- `makeBufList` leaves alone every record that existed before the call. -/
theorem makeBufList_heap (bp : BufPool) (cap num : Int) (a : Nat) (ha : a < bp.brk) :
    (bp.makeBufList cap num).heap a = bp.heap a := by
  have h := makeBufList.loop_heap cap (num - 1).toNat
    { (NewBuf bp cap).1 with Pool := (NewBuf bp cap).1.Pool.set cap (some (NewBuf bp cap).2) }
    (NewBuf bp cap).2 a (Nat.lt_succ_of_lt ha) (Nat.ne_of_lt ha)
  show (makeBufList.loop cap (num - 1).toNat _ _).heap a = bp.heap a
  rw [h]
  exact Heap.set_away _ _ _ _ (Nat.ne_of_lt ha)

/-- The list that `makeBufList` builds: the new records, at consecutive
addresses from the first free one. -/
theorem makeBufList_isList (bp : BufPool) (cap num : Int) :
    IsList (bp.makeBufList cap num).heap ((bp.makeBufList cap num).Pool.get cap)
      (List.range' bp.brk ((num - 1).toNat + 1)) := by
  rw [makeBufList_Pool, Pool.get_set_same, List.range'_succ]
  exact makeBufList.loop_isList cap (num - 1).toNat
    { (NewBuf bp cap).1 with Pool := (NewBuf bp cap).1.Pool.set cap (some (NewBuf bp cap).2) }
    (NewBuf bp cap).2 (Nat.lt_succ_self _) (by
      show ((bp.heap.set bp.brk _) bp.brk).Next = none
      rw [Heap.set_self])

/-- A list of another class made of records that existed before the call is
still that list after `makeBufList`. -/
theorem makeBufList_keeps (bp : BufPool) (cap num k : Int) (l : List Nat) (hk : k ≠ cap)
    (hl : IsList bp.heap (bp.Pool.get k) l) (hlt : ∀ a ∈ l, a < bp.brk) :
    IsList (bp.makeBufList cap num).heap ((bp.makeBufList cap num).Pool.get k) l
    ∧ ∀ a ∈ l, a < (bp.makeBufList cap num).brk := by
  constructor
  · rw [makeBufList_Pool, Pool.get_set_other _ _ _ _ hk]
    exact hl.transfer (fun a ha => by rw [makeBufList_heap bp cap num a (hlt a ha)])
  · intro a ha
    rw [makeBufList_brk]
    have := hlt a ha
    omega

theorem makeBufList_own_lt (bp : BufPool) (cap num : Int) :
    ∀ a ∈ List.range' bp.brk ((num - 1).toNat + 1), a < (bp.makeBufList cap num).brk := by
  intro a ha
  rw [makeBufList_brk]
  rw [List.mem_range'] at ha
  obtain ⟨i, hi, rfl⟩ := ha
  omega

/-- After a `makeBufList` for class 262144 followed by three for other
classes, the list of class 262144 is the one that the first call built. -/
theorem initPool_tail_list256K (bp : BufPool) (n1 n2 n3 n4 : Int) :
    IsList ((((bp.makeBufList m256K n1).makeBufList m1M n2).makeBufList m4M n3).makeBufList
        m8M n4).heap
      (((((bp.makeBufList m256K n1).makeBufList m1M n2).makeBufList m4M n3).makeBufList
        m8M n4).Pool.get 262144)
      (List.range' bp.brk ((n1 - 1).toNat + 1))
    ∧ ∀ a ∈ List.range' bp.brk ((n1 - 1).toNat + 1),
        a < ((((bp.makeBufList m256K n1).makeBufList m1M n2).makeBufList m4M n3).makeBufList
          m8M n4).brk := by
  have h0 := makeBufList_isList bp m256K n1
  have hlt := makeBufList_own_lt bp m256K n1
  have h1 := makeBufList_keeps _ m1M n2 m256K _ (by decide) h0 hlt
  have h2 := makeBufList_keeps _ m4M n3 m256K _ (by decide) h1.1 h1.2
  exact makeBufList_keeps _ m8M n4 m256K _ (by decide) h2.1 h2.2

/-- The list of class 262144 after `initPool`: 200 records. -/
theorem MemPool_list256K :
    ∃ L0 : List Nat, L0.length = 200 ∧ IsList MemPool.heap (MemPool.Pool.get 262144) L0
      ∧ ∀ a ∈ L0, a < MemPool.brk := by
  have h := initPool_tail_list256K
    (((emptyPool.makeBufList m4K 5000).makeBufList m16K 1000).makeBufList m64K 500) 200 50 20 10
  exact ⟨_, List.length_range' _ _ _, h.1, h.2⟩

theorem MemPool_PoolLock : MemPool.PoolLock = false := by
  simp only [MemPool, BufPool.initPool, makeBufList_PoolLock]
  rfl

theorem MemPool_table_keys (k : Int) : (MemPool.Pool k).isSome = true ↔ k ∈ classes := by
  simp only [MemPool, BufPool.initPool, makeBufList_Pool, Pool.set, emptyPool, classes,
    List.mem_cons, List.mem_singleton, List.not_mem_nil, or_false]
  split_ifs <;> simp_all

/-! ## The pool with addresses: the links stay sound -/

theorem BufPool.Linked.of_eq {bp bp1 : BufPool} (h : bp.Linked) (hh : bp1.heap = bp.heap)
    (hb : bp1.brk = bp.brk) (hp : bp1.Pool = bp.Pool) : bp1.Linked := by
  unfold BufPool.Linked at *
  rw [hh, hb, hp]
  exact h

/-- A new record does not disturb the links. -/
theorem BufPool.Linked.newBuf {bp : BufPool} (h : bp.Linked) (size : Int) : (NewBuf bp size).1.Linked := by
  obtain ⟨h1, h2⟩ := h
  constructor
  · intro k x hx
    obtain ⟨hlt, hc⟩ := h1 k x hx
    refine ⟨Nat.lt_succ_of_lt hlt, ?_⟩
    show ((bp.heap.set bp.brk _) x).Capacity = k
    rw [Heap.set_away _ _ _ _ (Nat.ne_of_lt hlt)]
    exact hc
  · intro a b hab
    have hab1 : ((bp.heap.set bp.brk
        { Capacity := size, length := 0, head := 0, Next := none,
          data := c.Malloc size }) a).Next = some b := hab
    by_cases ha : a = bp.brk
    · subst ha
      rw [Heap.set_self] at hab1
      simp at hab1
    · rw [Heap.set_away _ _ _ _ ha] at hab1
      obtain ⟨hlt, hc⟩ := h2 a b hab1
      refine ⟨Nat.lt_succ_of_lt hlt, ?_⟩
      show ((bp.heap.set bp.brk _) b).Capacity = ((bp.heap.set bp.brk _) a).Capacity
      rw [Heap.set_away _ _ _ _ (Nat.ne_of_lt hlt), Heap.set_away _ _ _ _ ha]
      exact hc

/-- A heap that differs only in `head`, `length` and memory has the same
links. -/
theorem BufPool.Linked.use {bp : BufPool} (h : bp.Linked) (hp : Heap)
    (hsame : ∀ a, (hp a).Next = (bp.heap a).Next ∧ (hp a).Capacity = (bp.heap a).Capacity) :
    BufPool.Linked { bp with heap := hp } := by
  obtain ⟨h1, h2⟩ := h
  constructor
  · intro k x hx
    obtain ⟨hlt, hc⟩ := h1 k x hx
    exact ⟨hlt, by show (hp x).Capacity = k; rw [(hsame x).2]; exact hc⟩
  · intro a b hab
    have hab1 : (hp a).Next = some b := hab
    rw [(hsame a).1] at hab1
    obtain ⟨hlt, hc⟩ := h2 a b hab1
    exact ⟨hlt, by
      show (hp b).Capacity = (hp a).Capacity
      rw [(hsame b).2, (hsame a).2]; exact hc⟩

/-- Writing the `Next` of one record keeps the links sound when the new
value is nil or an existing record of the same capacity. -/
theorem BufPool.Linked.setNext {bp : BufPool} (h : bp.Linked) (a : Nat) (v : Option Nat)
    (hv : ∀ b, v = some b → b < bp.brk ∧ (bp.heap b).Capacity = (bp.heap a).Capacity) :
    BufPool.Linked { bp with heap := bp.heap.set a { bp.heap a with Next := v } } := by
  obtain ⟨h1, h2⟩ := h
  have hcap : ∀ x, ((bp.heap.set a { bp.heap a with Next := v }) x).Capacity
      = (bp.heap x).Capacity := by
    intro x
    by_cases hx : x = a
    · subst hx; rw [Heap.set_self]
    · rw [Heap.set_away _ _ _ _ hx]
  constructor
  · intro k x hx
    obtain ⟨hlt, hc⟩ := h1 k x hx
    exact ⟨hlt, by
      show ((bp.heap.set a { bp.heap a with Next := v }) x).Capacity = k
      rw [hcap]; exact hc⟩
  · intro x b hxb
    have hxb1 : ((bp.heap.set a { bp.heap a with Next := v }) x).Next = some b := hxb
    show b < bp.brk ∧ ((bp.heap.set a { bp.heap a with Next := v }) b).Capacity
      = ((bp.heap.set a { bp.heap a with Next := v }) x).Capacity
    rw [hcap, hcap]
    by_cases hx : x = a
    · subst hx
      rw [Heap.set_self] at hxb1
      exact hv b hxb1
    · rw [Heap.set_away _ _ _ _ hx] at hxb1
      exact h2 x b hxb1

/-- Writing an entry of the table keeps the links sound when the new value
is nil or an existing record of the capacity of the key. -/
theorem BufPool.Linked.setPool {bp : BufPool} (h : bp.Linked) (k : Int) (v : Option Nat)
    (hv : ∀ b, v = some b → b < bp.brk ∧ (bp.heap b).Capacity = k) :
    BufPool.Linked { bp with Pool := bp.Pool.set k v } := by
  obtain ⟨h1, h2⟩ := h
  refine ⟨?_, h2⟩
  intro j x hx
  have hx1 : (bp.Pool.set k v).get j = some x := hx
  by_cases hj : j = k
  · subst hj
    rw [Pool.get_set_same] at hx1
    exact hv x hx1
  · rw [Pool.get_set_other _ _ _ _ hj] at hx1
    exact h1 j x hx1

theorem Linked_emptyPool : emptyPool.Linked := by
  constructor
  · intro k x hx
    simp [emptyPool, Pool.get] at hx
  · intro a b hab
    simp [emptyPool] at hab

/-- The loop of `makeBufList` keeps the links sound. -/
theorem Linked_loop (cap : Int) (k : Nat) :
    ∀ (bp : BufPool) (prev : Nat), bp.Linked → prev < bp.brk → (bp.heap prev).Capacity = cap →
      (makeBufList.loop cap k bp prev).Linked := by
  induction k with
  | zero => intro bp prev h _ _; exact h
  | succ k ih =>
    intro bp prev h hp hc
    rw [makeBufList.loop_succ]
    have hpb : prev ≠ bp.brk := by omega
    have hn := h.newBuf cap
    have hs := hn.setNext prev (some bp.brk) (by
      intro b hb
      simp only [Option.some.injEq] at hb
      subst hb
      refine ⟨Nat.lt_succ_self _, ?_⟩
      show ((bp.heap.set bp.brk _) bp.brk).Capacity = ((bp.heap.set bp.brk _) prev).Capacity
      rw [Heap.set_self, Heap.set_away _ _ _ _ hpb, hc])
    apply ih _ bp.brk (hs.of_eq rfl rfl rfl) (Nat.lt_succ_self _)
    show (((bp.heap.set bp.brk _).set prev _) bp.brk).Capacity = cap
    rw [Heap.set_away _ _ _ _ (Ne.symm hpb), Heap.set_self]

theorem Linked_makeBufList {bp : BufPool} (h : bp.Linked) (cap num : Int) :
    (bp.makeBufList cap num).Linked := by
  have hn := h.newBuf cap
  have hs := hn.setPool cap (some bp.brk) (by
    intro b hb
    simp only [Option.some.injEq] at hb
    subst hb
    refine ⟨Nat.lt_succ_self _, ?_⟩
    show ((bp.heap.set bp.brk _) bp.brk).Capacity = cap
    rw [Heap.set_self])
  have hl := Linked_loop cap (num - 1).toNat _ bp.brk hs (Nat.lt_succ_self _) (by
    show ((bp.heap.set bp.brk _) bp.brk).Capacity = cap
    rw [Heap.set_self])
  exact hl.of_eq rfl rfl rfl

theorem Linked_MemPool : MemPool.Linked := by
  unfold ptr.MemPool BufPool.initPool
  exact Linked_makeBufList (Linked_makeBufList (Linked_makeBufList (Linked_makeBufList
    (Linked_makeBufList (Linked_makeBufList (Linked_makeBufList Linked_emptyPool _ _) _ _) _ _)
    _ _) _ _) _ _) _ _

/-! ## The pool with addresses: the paths of `Alloc` and `Revert` -/

/-- The four ways in which a call of `Alloc` returns. -/
theorem Alloc_paths {bp bp1 : BufPool} {N : Int} {r : Option Nat × Option String}
    (h : bp.Alloc N = some (bp1, r)) :
    (Alloc.index N = none ∧ bp1 = bp ∧ r = (none, some "Alloc size Too Large!"))
    ∨ ∃ c : Int, Alloc.index N = some c ∧ bp.PoolLock = false ∧
      ((bp.Pool.get c = none ∧ bp1 = { bp with PoolLock := true }
          ∧ r = (none, some "already use too many memory!\n"))
      ∨ (bp.Pool.get c = none
          ∧ bp1 = { heap := bp.heap.set bp.brk
                      { Capacity := c, length := 0, head := 0, Next := none,
                        data := mem.c.Malloc c },
                    brk := bp.brk + 1, Pool := bp.Pool, PoolLock := false,
                    TotalMem := uint64 ((bp.TotalMem : Int) + (uint64 (c.tdiv 1024) : Nat)) }
          ∧ r = (some bp.brk, none))
      ∨ ∃ target : Nat, bp.Pool.get c = some target
          ∧ bp1 = { heap := bp.heap.set target { bp.heap target with Next := none },
                    brk := bp.brk, Pool := bp.Pool.set c (bp.heap target).Next,
                    PoolLock := false,
                    TotalMem := uint64 ((bp.TotalMem : Int) - (uint64 (c.tdiv 1024) : Nat)) }
          ∧ r = (some target, none)) := by
  unfold BufPool.Alloc at h
  split at h
  · simp only [Option.some.injEq, Prod.mk.injEq] at h
    exact Or.inl ⟨by assumption, h.1.symm, h.2.symm⟩
  · rename_i index hidx
    right
    unfold BufPool.Lock at h
    split_ifs at h with hl
    have hl1 : bp.PoolLock = false := by simpa using hl
    refine ⟨index, hidx, hl1, ?_⟩
    simp only at h
    split at h
    · rename_i hget
      split_ifs at h
      · simp only [Option.some.injEq, Prod.mk.injEq] at h
        exact Or.inl ⟨hget, h.1.symm, h.2.symm⟩
      · simp only [Option.some.injEq, Prod.mk.injEq] at h
        exact Or.inr (Or.inl ⟨hget, h.1.symm, h.2.symm⟩)
    · rename_i targetBuf hget
      simp only [Option.some.injEq, Prod.mk.injEq] at h
      exact Or.inr (Or.inr ⟨targetBuf, hget, h.1.symm, h.2.symm⟩)

/-- The two ways in which a call of `Revert` returns. -/
theorem Revert_paths {bp bp1 : BufPool} {b : Nat} {e : Option String}
    (h : bp.Revert b = some (bp1, e)) :
    bp.PoolLock = false ∧
    ((bp.Pool (bp.heap b).Capacity = none
        ∧ bp1 = { bp with heap := bp.heap.set b (bp.heap b).Clear, PoolLock := true }
        ∧ e ≠ none)
    ∨ ∃ first : Option Nat, bp.Pool (bp.heap b).Capacity = some first
        ∧ bp1 = { heap := (bp.heap.set b (bp.heap b).Clear).set b
                      { (bp.heap b).Clear with Next := first },
                  brk := bp.brk,
                  Pool := bp.Pool.set (bp.heap b).Capacity (some b),
                  PoolLock := false,
                  TotalMem := uint64 ((bp.TotalMem : Int)
                    + (uint64 ((bp.heap b).Capacity.tdiv 1024) : Nat)) }
        ∧ e = none) := by
  dsimp only [BufPool.Revert, BufPool.Lock] at h
  split_ifs at h with hl
  have hl1 : bp.PoolLock = false := by simpa using hl
  refine ⟨hl1, ?_⟩
  simp only at h
  split at h
  · rename_i hkey
    simp only [Option.some.injEq, Prod.mk.injEq] at h
    left
    refine ⟨hkey, h.1.symm, ?_⟩
    rw [← h.2]; simp
  · rename_i first hfirst
    simp only [Option.some.injEq, Prod.mk.injEq] at h
    refine Or.inr ⟨first, hfirst, ?_, h.2.symm⟩
    rw [← h.1]
    simp only [BufPool.Unlock, Heap.set_self]

/-- The path of `Revert` through lines 178-184, as an equation. -/
theorem Revert_eq_link (bp : BufPool) (b : Nat) (first : Option Nat)
    (hlock : bp.PoolLock = false) (hfirst : bp.Pool (bp.heap b).Capacity = some first) :
    bp.Revert b
      = some ({ heap := (bp.heap.set b (bp.heap b).Clear).set b
                    { (bp.heap b).Clear with Next := first },
                brk := bp.brk,
                Pool := bp.Pool.set (bp.heap b).Capacity (some b),
                PoolLock := false,
                TotalMem := uint64 ((bp.TotalMem : Int)
                  + (uint64 ((bp.heap b).Capacity.tdiv 1024) : Nat)) }, none) := by
  simp only [BufPool.Revert, BufPool.Lock, hlock, BufPool.Unlock]
  simp [hfirst, Heap.set_self]

theorem Pool.set_keeps_key (p : Pool) (k : Int) (v : Option Nat) (hk : (p k).isSome = true)
    (j : Int) : ((p.set k v) j).isSome = (p j).isSome := by
  by_cases h : j = k
  · subst h
    simp [Pool.set, hk]
  · simp [Pool.set, h]

theorem Pool.entry_of_get {p : Pool} {k : Int} {b : Nat} (h : p.get k = some b) :
    p k = some (some b) := by
  unfold Pool.get at h
  split at h
  · rename_i v hv
    rw [hv, h]
  · simp at h

/-- In every reachable pool the keys of the table are the seven classes. -/
theorem ReachableBy.table_keys {ok : BufPool → Nat → Prop} {bp : BufPool} (h : ReachableBy ok bp)
    (k : Int) : (bp.Pool k).isSome = true ↔ k ∈ classes := by
  induction h with
  | init => exact MemPool_table_keys k
  | alloc _ hstep ih =>
    rcases Alloc_paths hstep with ⟨_, h1, _⟩ | ⟨c, _, _, ⟨_, h1, _⟩ | ⟨_, h1, _⟩ | ⟨t, ht, h1, _⟩⟩
    · rw [h1]; exact ih
    · rw [h1]; exact ih
    · rw [h1]; exact ih
    · rw [h1]
      dsimp only
      rw [Pool.set_keeps_key _ _ _ (by rw [Pool.entry_of_get ht]; rfl)]
      exact ih
  | revert _ _ _ hstep ih =>
    rcases Revert_paths hstep with ⟨_, ⟨_, h1, _⟩ | ⟨first, hfirst, h1, _⟩⟩
    · rw [h1]; exact ih
    · rw [h1]
      dsimp only
      rw [Pool.set_keeps_key _ _ _ (by rw [hfirst]; rfl)]
      exact ih
  | newBuf _ _ ih => exact ih
  | use _ _ _ ih => exact ih

/-- In every reachable pool the links are sound. -/
theorem ReachableBy.linked {ok : BufPool → Nat → Prop} {bp : BufPool} (h : ReachableBy ok bp) :
    bp.Linked := by
  induction h with
  | init => exact Linked_MemPool
  | @alloc bp0 bp2 N r hprev hstep ih =>
    rcases Alloc_paths hstep with ⟨_, h1, _⟩ | ⟨c, _, _, ⟨_, h1, _⟩ | ⟨_, h1, _⟩ | ⟨t, ht, h1, _⟩⟩
    · rw [h1]; exact ih
    · rw [h1]; exact ih.of_eq rfl rfl rfl
    · rw [h1]; exact (ih.newBuf c).of_eq rfl rfl rfl
    · rw [h1]
      obtain ⟨htlt, htc⟩ := ih.1 c t ht
      have hp := ih.setPool c (bp0.heap t).Next (by
        intro b hb
        obtain ⟨h3, h4⟩ := ih.2 t b hb
        exact ⟨h3, by rw [h4, htc]⟩)
      have hn := hp.setNext t none (by intro b hb; simp at hb)
      exact hn.of_eq rfl rfl rfl
  | @revert bp0 bp2 buf e hprev hlt hok hstep ih =>
    rcases Revert_paths hstep with ⟨_, ⟨_, h1, _⟩ | ⟨first, hfirst, h1, _⟩⟩
    · rw [h1]
      have hu := ih.use (bp0.heap.set buf (bp0.heap buf).Clear) (by
        intro a
        by_cases ha : a = buf
        · subst ha; rw [Heap.set_self]; exact ⟨rfl, rfl⟩
        · rw [Heap.set_away _ _ _ _ ha]; exact ⟨rfl, rfl⟩)
      exact hu.of_eq rfl rfl rfl
    · rw [h1]
      have hu := ih.use (bp0.heap.set buf (bp0.heap buf).Clear) (by
        intro a
        by_cases ha : a = buf
        · subst ha; rw [Heap.set_self]; exact ⟨rfl, rfl⟩
        · rw [Heap.set_away _ _ _ _ ha]; exact ⟨rfl, rfl⟩)
      have hs := hu.setNext buf first (by
        intro b hb
        subst hb
        have hget : bp0.Pool.get (bp0.heap buf).Capacity = some b := by
          simp [Pool.get, hfirst]
        obtain ⟨h3, h4⟩ := ih.1 _ b hget
        refine ⟨h3, ?_⟩
        show ((bp0.heap.set buf _) b).Capacity = ((bp0.heap.set buf _) buf).Capacity
        rw [Heap.set_self]
        by_cases hb : b = buf
        · subst hb; rw [Heap.set_self]
        · rw [Heap.set_away _ _ _ _ hb, h4]; rfl)
      have hp := hs.setPool (bp0.heap buf).Capacity (some buf) (by
        intro b hb
        simp only [Option.some.injEq] at hb
        subst hb
        refine ⟨hlt, ?_⟩
        show (((bp0.heap.set buf _).set buf _) buf).Capacity = _
        rw [Heap.set_self]
        simp [Heap.set_self, Buf.Clear])
      refine hp.of_eq ?_ rfl rfl
      simp only [Heap.set_self]
  | newBuf size _ ih => exact ih.newBuf size
  | use hp _ hsame ih => exact ih.use hp hsame

/-! ## The pool with addresses: `Revert` and aliasing -/

/-- What the path of `Revert` through lines 178-184 does to the heap and the
pool, for a buffer of capacity `c` whose key holds `first`. -/
theorem Revert_push (bp : BufPool) (b : Nat) (c : Int) (first : Option Nat)
    (hlock : bp.PoolLock = false) (hcap : (bp.heap b).Capacity = c)
    (hfirst : bp.Pool c = some first) :
    ∃ bp1 : BufPool, bp.Revert b = some (bp1, none)
      ∧ bp1.heap b = { bp.heap b with head := 0, length := 0, Next := first }
      ∧ (∀ a, a ≠ b → bp1.heap a = bp.heap a)
      ∧ bp1.Pool = bp.Pool.set c (some b)
      ∧ bp1.brk = bp.brk ∧ bp1.PoolLock = false
      ∧ bp1.TotalMem = uint64 ((bp.TotalMem : Int) + (uint64 (c.tdiv 1024) : Nat)) := by
  subst hcap
  refine ⟨_, Revert_eq_link bp b first hlock hfirst, ?_, ?_, rfl, rfl, rfl, rfl⟩
  · show ((bp.heap.set b _).set b _) b = _
    rw [Heap.set_self]
    rfl
  · intro a ha
    show ((bp.heap.set b _).set b _) a = _
    rw [Heap.set_away _ _ _ _ ha, Heap.set_away _ _ _ _ ha]

/-- In a pool with sound links every record of the list of class `k` exists
and has capacity `k`. -/
theorem BufPool.Linked.inList {bp : BufPool} (h : bp.Linked) (k : Int) :
    ∀ (p : Option Nat) (a : Nat), InList bp.heap p a →
      (∀ x, p = some x → x < bp.brk ∧ (bp.heap x).Capacity = k) →
      a < bp.brk ∧ (bp.heap a).Capacity = k := by
  intro p a hin
  induction hin with
  | head a => intro hp; exact hp a rfl
  | @next x y _ ih =>
    intro hp
    apply ih
    intro z hz
    obtain ⟨h1, h2⟩ := h.2 x z hz
    exact ⟨h1, by rw [h2]; exact (hp x rfl).2⟩

theorem BufPool.Linked.inList_pool {bp : BufPool} (h : bp.Linked) (k : Int) (a : Nat)
    (hin : InList bp.heap (bp.Pool.get k) a) : a < bp.brk ∧ (bp.heap a).Capacity = k :=
  h.inList k _ a hin (fun x hx => h.1 k x hx)

/-- A record whose `Next` points to itself is the only record of its list. -/
theorem InList.of_self_loop {h : Heap} {x : Nat} (hx : (h x).Next = some x) :
    ∀ (p : Option Nat) (a : Nat), InList h p a → p = some x → a = x := by
  intro p a hin
  induction hin with
  | head a => intro hp; exact (Option.some.inj hp)
  | @next y z _ ih =>
    intro hp
    have hy : y = x := Option.some.inj hp
    subst hy
    exact ih hx

/-- A record that `NewBuf` has just created is in no list. -/
theorem NewBuf_not_inList {bp : BufPool} (h : bp.Linked) (size k : Int) :
    ¬ InList (NewBuf bp size).1.heap ((NewBuf bp size).1.Pool.get k) bp.brk := by
  intro hin
  have hl := (h.newBuf size).inList_pool k bp.brk hin
  have key : ∀ (p : Option Nat) (a : Nat), InList (NewBuf bp size).1.heap p a →
      (∀ x, p = some x → x < bp.brk) → a < bp.brk := by
    intro p a hi
    induction hi with
    | head a => intro hp; exact hp a rfl
    | @next x y _ ih =>
      intro hp
      apply ih
      intro z hz
      have hxlt := hp x rfl
      have hz1 : ((bp.heap.set bp.brk _) x).Next = some z := hz
      rw [Heap.set_away _ _ _ _ (Nat.ne_of_lt hxlt)] at hz1
      exact (h.2 x z hz1).1
  have := key _ _ hin (fun x hx => (h.1 k x hx).1)
  omega

theorem Alloc.index_ne_256K (N : Int) : Alloc.index N ≠ some 262144 := by
  intro h
  rcases Alloc.index_mem h with h | h | h | h | h | h <;> omega

theorem MemPool_Pool_4K : MemPool.Pool 4096 = some (some 0) := by
  simp only [MemPool, BufPool.initPool, makeBufList_Pool, Pool.set, m4K, m16K, m64K, m256K, m1M,
    m4M, m8M]
  rfl

theorem NewBuf_cap (bp : BufPool) (size : Int) :
    ((NewBuf bp size).1.heap bp.brk).Capacity = size :=
  congrArg Buf.Capacity (Heap.set_self _ _ _)

theorem NewBuf_PoolLock (bp : BufPool) (size : Int) :
    (NewBuf bp size).1.PoolLock = bp.PoolLock := rfl

theorem NewBuf_Pool (bp : BufPool) (size : Int) : (NewBuf bp size).1.Pool = bp.Pool := rfl

theorem NewBuf_brk_lt (bp : BufPool) (size : Int) : bp.brk < (NewBuf bp size).1.brk :=
  Nat.lt_succ_self bp.brk

/-- A buffer returned twice.  On a pool with sound links, the lock free and
the key `c` in the table, a caller creates a buffer of capacity `c` (it gets
the address `bp.brk`) and calls `Revert` on it twice.  Both calls return no
error.  After the first the buffer heads the list of `c`, in front of every
record that was in the list.  After the second its `Next` is the buffer
itself, the list is the buffer alone, over and over, and none of the records
that were in the list before is in it. -/
theorem Revert_twice (bp : BufPool) (c : Int) (hl : bp.Linked) (hlock : bp.PoolLock = false)
    (hkey : (bp.Pool c).isSome = true) :
    ∃ bp2 bp3 : BufPool,
      (NewBuf bp c).1.Revert bp.brk = some (bp2, none)
      ∧ bp2.PoolLock = false ∧ (bp2.heap bp.brk).Capacity = c
      ∧ bp2.Pool.get c = some bp.brk
      ∧ bp2.Revert bp.brk = some (bp3, none)
      ∧ bp3.Pool.get c = some bp.brk
      ∧ (bp3.heap bp.brk).Next = some bp.brk
      ∧ walk bp3.heap 3 (bp3.Pool.get c) = [bp.brk, bp.brk, bp.brk]
      ∧ ∀ a, InList bp.heap (bp.Pool.get c) a →
          a ≠ bp.brk ∧ InList bp2.heap (bp2.Pool.get c) a
          ∧ ¬ InList bp3.heap (bp3.Pool.get c) a := by
  obtain ⟨first, hfirst⟩ := Option.isSome_iff_exists.mp hkey
  have hget : bp.Pool.get c = first := by simp [Pool.get, hfirst]
  obtain ⟨bp2, hrev2, hb2, ho2, hp2, _, hl2, _⟩ :=
    Revert_push (NewBuf bp c).1 bp.brk c first hlock (NewBuf_cap bp c) hfirst
  have hcap2 : (bp2.heap bp.brk).Capacity = c := by rw [hb2]; exact NewBuf_cap bp c
  have hget2 : bp2.Pool.get c = some bp.brk := by rw [hp2, Pool.get_set_same]
  have hpool2 : bp2.Pool c = some (some bp.brk) := by rw [hp2]; simp [Pool.set]
  obtain ⟨bp3, hrev3, hb3, _, hp3, _, _, _⟩ :=
    Revert_push bp2 bp.brk c (some bp.brk) hl2 hcap2 hpool2
  have hget3 : bp3.Pool.get c = some bp.brk := by rw [hp3, Pool.get_set_same]
  have hnext3 : (bp3.heap bp.brk).Next = some bp.brk := by rw [hb3]
  refine ⟨bp2, bp3, hrev2, hl2, hcap2, hget2, hrev3, hget3, hnext3, ?_, ?_⟩
  · rw [hget3]
    simp [walk, hnext3]
  · intro a ha
    have halt : a < bp.brk := (hl.inList_pool c a ha).1
    refine ⟨Nat.ne_of_lt halt, ?_, ?_⟩
    · rw [hget2]
      apply InList.next
      rw [hb2]
      rw [hget] at ha
      refine ha.carry (fun y hy => ?_)
      have hylt : y < bp.brk := (hl.inList_pool c y (by rw [hget]; exact hy)).1
      rw [ho2 y (Nat.ne_of_lt hylt)]
      show ((bp.heap.set bp.brk _) y).Next = _
      rw [Heap.set_away _ _ _ _ (Nat.ne_of_lt hylt)]
    · rw [hget3]
      intro hin
      have := InList.of_self_loop hnext3 _ _ hin rfl
      omega

/-- C6, as stated, fails for a buffer that is already in the list of its
class.  A caller creates a buffer of capacity 4096 on the initial pool (it
gets the address `MemPool.brk`) and returns it with `Revert`: the pool `bp2`
after that call is reachable and has the lock free, and the list of class
4096 is that buffer followed by the initial list, whose head is the record
0.  A second `Revert` of the buffer returns no error and sets its `Next` to
the head of the list, which is the buffer itself: the list is now the
buffer alone, over and over, and the record 0 of the previous list is no
longer in it, so the previous list is not its tail. -/
theorem Revert_listed_buffer_counterexample :
    ∃ bp2 bp3 : BufPool,
      (NewBuf MemPool 4096).1.Revert MemPool.brk = some (bp2, none)
      ∧ Reachable bp2 ∧ bp2.PoolLock = false
      ∧ (bp2.heap MemPool.brk).Capacity = 4096 ∧ (4096 : Int) ∈ classes
      ∧ bp2.Pool.get 4096 = some MemPool.brk
      ∧ InList bp2.heap (bp2.Pool.get 4096) 0 ∧ 0 ≠ MemPool.brk
      ∧ bp2.Revert MemPool.brk = some (bp3, none)
      ∧ bp3.Pool.get 4096 = some MemPool.brk
      ∧ (bp3.heap MemPool.brk).Next = some MemPool.brk
      ∧ walk bp3.heap 3 (bp3.Pool.get 4096) = [MemPool.brk, MemPool.brk, MemPool.brk]
      ∧ ¬ InList bp3.heap (bp3.Pool.get 4096) 0 := by
  obtain ⟨bp2, bp3, h1, h2, h3, h4, h5, h6, h7, h8, h9⟩ :=
    Revert_twice MemPool 4096 Linked_MemPool MemPool_PoolLock
      ((MemPool_table_keys 4096).mpr (by decide))
  have h0 : InList MemPool.heap (MemPool.Pool.get 4096) 0 := by
    have hg : MemPool.Pool.get 4096 = some 0 := by
      unfold Pool.get
      rw [MemPool_Pool_4K]
    rw [hg]
    exact InList.head 0
  have hr2 : Reachable bp2 :=
    ReachableBy.revert (ReachableBy.newBuf 4096 ReachableBy.init) (NewBuf_brk_lt MemPool 4096)
      True.intro h1
  exact ⟨bp2, bp3, h1, hr2, h2, h3, by decide, h4, (h9 0 h0).2.1, (h9 0 h0).1, h5, h6, h7, h8,
    (h9 0 h0).2.2⟩

/-- C6, amended: in a pool reachable from `MemPool` (by `Alloc`, by `Revert`
of any existing buffer, and by callers that create and use buffers), with
the lock free, let `b` be a buffer whose capacity `c` is one of the seven
classes and which is not in the list of `c`.  `Revert(b)` returns no error,
sets `head` and `length` of `b` to 0 and its `Next` to the former head of
the list of `c`, and writes no other record; `b` is the new head of the list
of `c`, and if the list was `l` it is now `b` followed by `l`; every other
entry of the table and every other list are as before; the lock is free
again; and the `uint64` counter went up by `c / 1024`: modulo `2 ^ 64` in
general, exactly when the sum stays below `2 ^ 64`. -/
theorem Revert_known_class_unlisted (bp : BufPool) (b : Nat) (c : Int) (hr : Reachable bp)
    (hlock : bp.PoolLock = false) (hcap : (bp.heap b).Capacity = c) (hc : c ∈ classes)
    (hnot : ¬ InList bp.heap (bp.Pool.get c) b) :
    ∃ bp1 : BufPool, bp.Revert b = some (bp1, none)
      ∧ bp1.heap b = { bp.heap b with head := 0, length := 0, Next := bp.Pool.get c }
      ∧ (∀ a, a ≠ b → bp1.heap a = bp.heap a)
      ∧ bp1.Pool.get c = some b
      ∧ (∀ l, IsList bp.heap (bp.Pool.get c) l → IsList bp1.heap (bp1.Pool.get c) (b :: l))
      ∧ (∀ k, k ≠ c → bp1.Pool k = bp.Pool k
          ∧ ∀ l, IsList bp.heap (bp.Pool.get k) l → IsList bp1.heap (bp1.Pool.get k) l)
      ∧ (bp1.TotalMem : Int) = (bp.TotalMem + c / 1024) % 2 ^ 64
      ∧ ((bp.TotalMem : Int) + c / 1024 < 2 ^ 64 →
          (bp1.TotalMem : Int) = bp.TotalMem + c / 1024)
      ∧ bp1.PoolLock = false := by
  have hlinked := ReachableBy.linked hr
  have hkb := classes_kb hc
  have hpos : (0 : Int) ≤ c / 1024 := by rw [← hkb]; exact Int.ofNat_nonneg _
  obtain ⟨first, hfirst⟩ := Option.isSome_iff_exists.mp ((ReachableBy.table_keys hr c).mpr hc)
  have hget : bp.Pool.get c = first := by simp [Pool.get, hfirst]
  obtain ⟨bp1, hrev, hb1, ho1, hp1, _, hl1, hT1⟩ := Revert_push bp b c first hlock hcap hfirst
  have hmod : (bp1.TotalMem : Int) = (bp.TotalMem + c / 1024) % 2 ^ 64 := by
    rw [hT1, uint64_cast, hkb]
  have hget1 : bp1.Pool.get c = some b := by rw [hp1, Pool.get_set_same]
  refine ⟨bp1, hrev, by rw [hb1, hget], ho1, hget1, ?_, ?_, hmod, ?_, hl1⟩
  · intro l hl
    rw [hget1]
    apply IsList.cons
    rw [hb1]
    rw [hget] at hl
    refine hl.transfer (fun a ha => ?_)
    have hab : a ≠ b := by
      intro hab
      subst hab
      exact hnot (by rw [hget]; exact hl.mem_inList a ha)
    rw [ho1 a hab]
  · intro k hk
    refine ⟨by rw [hp1]; exact Pool.set_ne _ _ _ _ hk, ?_⟩
    intro l hl
    rw [hp1, Pool.get_set_other _ _ _ _ hk]
    refine hl.transfer (fun a ha => ?_)
    have hab : a ≠ b := by
      intro hab
      subst hab
      have := (hlinked.inList_pool k a (hl.mem_inList a ha)).2
      exact hk (by rw [← this, hcap])
    rw [ho1 a hab]
  · intro h1
    rw [hmod]
    apply Int.emod_eq_of_lt <;> omega

theorem Revert_known_class_unlisted_witness :
    ∃ bp1 : BufPool, (NewBuf MemPool 4096).1.Revert MemPool.brk = some (bp1, none)
      ∧ bp1.Pool.get 4096 = some MemPool.brk
      ∧ (bp1.heap MemPool.brk).Next = some 0
      ∧ (bp1.heap MemPool.brk).head = 0 ∧ (bp1.heap MemPool.brk).length = 0
      ∧ bp1.PoolLock = false := by
  obtain ⟨bp1, h1, h2, _, h4, _, _, _, _, h9⟩ :=
    Revert_known_class_unlisted (NewBuf MemPool 4096).1 MemPool.brk 4096
      (ReachableBy.newBuf 4096 ReachableBy.init)
      ((NewBuf_PoolLock MemPool 4096).trans MemPool_PoolLock)
      (NewBuf_cap MemPool 4096) (by decide)
      (NewBuf_not_inList Linked_MemPool 4096 4096)
  have hg : (NewBuf MemPool 4096).1.Pool.get 4096 = some 0 := by
    rw [NewBuf_Pool]
    unfold Pool.get
    rw [MemPool_Pool_4K]
  refine ⟨bp1, h1, h4, ?_, ?_, ?_, h9⟩
  · rw [h2, hg]
  · rw [h2]
  · rw [h2]

/-! ## The pool with addresses: the class 262144 -/

/-- `Alloc` leaves alone the list of every class that it did not select: the
entry of the table, and the records of the list. -/
theorem Alloc_keeps_list {bp bp1 : BufPool} {N : Int} {r : Option Nat × Option String}
    (hl : bp.Linked) (h : bp.Alloc N = some (bp1, r)) (k : Int) (hk : Alloc.index N ≠ some k) :
    bp1.Pool k = bp.Pool k
    ∧ ∀ l, IsList bp.heap (bp.Pool.get k) l → IsList bp1.heap (bp1.Pool.get k) l := by
  rcases Alloc_paths h with ⟨_, h1, _⟩ | ⟨c, hc, _, ⟨_, h1, _⟩ | ⟨_, h1, _⟩ | ⟨t, ht, h1, _⟩⟩
  · rw [h1]; exact ⟨rfl, fun l hl => hl⟩
  · rw [h1]; exact ⟨rfl, fun l hl => hl⟩
  · rw [h1]
    refine ⟨rfl, fun l hlist => ?_⟩
    refine hlist.transfer (fun a ha => ?_)
    have halt := (hl.inList_pool k a (hlist.mem_inList a ha)).1
    show ((bp.heap.set bp.brk _) a).Next = _
    rw [Heap.set_away _ _ _ _ (Nat.ne_of_lt halt)]
  · have hkc : k ≠ c := fun hkc => hk (hkc ▸ hc)
    rw [h1]
    refine ⟨Pool.set_ne _ _ _ _ hkc, fun l hlist => ?_⟩
    show IsList (bp.heap.set t _) ((bp.Pool.set c _).get k) l
    rw [Pool.get_set_other _ _ _ _ hkc]
    refine hlist.transfer (fun a ha => ?_)
    have hacap := (hl.inList_pool k a (hlist.mem_inList a ha)).2
    have htcap := (hl.1 c t ht).2
    have hat : a ≠ t := by
      intro hat
      subst hat
      exact hkc (by rw [← hacap, htcap])
    rw [Heap.set_away _ _ _ _ hat]

/-- The buffer that `Alloc` returns has the capacity of the selected class. -/
theorem Alloc_returned_cap {bp bp1 : BufPool} {N : Int} {a : Nat} {e : Option String}
    (hl : bp.Linked) (h : bp.Alloc N = some (bp1, some a, e)) :
    Alloc.index N = some (bp1.heap a).Capacity := by
  rcases Alloc_paths h with ⟨_, _, h3⟩ | ⟨c, hc, _, ⟨_, _, h3⟩ | ⟨_, h1, h3⟩ | ⟨t, ht, h1, h3⟩⟩
  · simp at h3
  · simp at h3
  · simp only [Prod.mk.injEq, Option.some.injEq] at h3
    rw [h1, h3.1, hc]
    show some c = some ((bp.heap.set bp.brk _) bp.brk).Capacity
    rw [Heap.set_self]
  · simp only [Prod.mk.injEq, Option.some.injEq] at h3
    rw [h1, h3.1, hc]
    show some c = some ((bp.heap.set t _) t).Capacity
    rw [Heap.set_self]
    exact congrArg some (hl.1 c t ht).2.symm

/-- With `Revert` kept away from the records of the list of class 262144,
that list only grows at its head: it always ends with the list `L0` that it
was in the initial pool. -/
theorem ReachableKeeping256K.suffix {L0 : List Nat}
    (h0 : IsList MemPool.heap (MemPool.Pool.get 262144) L0) {bp : BufPool}
    (h : ReachableKeeping256K bp) :
    ∃ pre : List Nat, IsList bp.heap (bp.Pool.get 262144) (pre ++ L0) := by
  unfold ReachableKeeping256K at h
  induction h with
  | init => exact ⟨[], h0⟩
  | @alloc bp0 bp2 N r hprev hstep ih =>
    obtain ⟨pre, hpre⟩ := ih
    exact ⟨pre, (Alloc_keeps_list hprev.linked hstep 262144 (Alloc.index_ne_256K N)).2 _ hpre⟩
  | @revert bp0 bp2 buf e hprev hlt hok hstep ih =>
    obtain ⟨pre, hpre⟩ := ih
    have hnotin : ∀ a ∈ pre ++ L0, a ≠ buf := by
      intro a ha hab
      subst hab
      exact hok (hpre.mem_inList a ha)
    rcases Revert_paths hstep with ⟨_, ⟨_, h1, _⟩ | ⟨first, hfirst, h1, _⟩⟩
    · refine ⟨pre, ?_⟩
      rw [h1]
      refine hpre.transfer (fun a ha => ?_)
      show ((bp0.heap.set buf _) a).Next = _
      rw [Heap.set_away _ _ _ _ (hnotin a ha)]
    · have hrest : IsList bp2.heap (bp0.Pool.get 262144) (pre ++ L0) := by
        rw [h1]
        refine hpre.transfer (fun a ha => ?_)
        show (((bp0.heap.set buf _).set buf _) a).Next = _
        rw [Heap.set_away _ _ _ _ (hnotin a ha), Heap.set_away _ _ _ _ (hnotin a ha)]
      by_cases hk : (262144 : Int) = (bp0.heap buf).Capacity
      · refine ⟨buf :: pre, ?_⟩
        have hg2 : bp2.Pool.get 262144 = some buf := by
          rw [h1, hk]
          exact Pool.get_set_same _ _ _
        have hn2 : (bp2.heap buf).Next = bp0.Pool.get 262144 := by
          rw [h1]
          show (((bp0.heap.set buf _).set buf _) buf).Next = _
          rw [Heap.set_self]
          show first = _
          rw [hk]
          simp [Pool.get, hfirst]
        rw [hg2, List.cons_append]
        apply IsList.cons
        rw [hn2]
        exact hrest
      · refine ⟨pre, ?_⟩
        have hg2 : bp2.Pool.get 262144 = bp0.Pool.get 262144 := by
          rw [h1]
          exact Pool.get_set_other _ _ _ _ hk
        rw [hg2]
        exact hrest
  | @newBuf bp0 size hprev ih =>
    obtain ⟨pre, hpre⟩ := ih
    refine ⟨pre, ?_⟩
    refine hpre.transfer (fun a ha => ?_)
    have halt := (hprev.linked.inList_pool 262144 a (hpre.mem_inList a ha)).1
    show ((bp0.heap.set bp0.brk _) a).Next = _
    rw [Heap.set_away _ _ _ _ (Nat.ne_of_lt halt)]
  | @use bp0 hp hprev hsame ih =>
    obtain ⟨pre, hpre⟩ := ih
    exact ⟨pre, hpre.transfer (fun a _ => (hsame a).1)⟩

end ptr

/-! ## The class 262144 is never issued -/

/-- C19, as stated, fails when `Revert` is given a buffer that the list of
class 262144 already holds.  The list of that class in the initial pool is
`L0`, 200 records.  A caller creates a buffer of capacity 262144 (it gets
the address `MemPool.brk`) and calls `Revert` on it twice; both calls return
no error and the pool `bp3` after them is reachable.  The second call sets
the `Next` of the buffer to the head of the list, the buffer itself: the
list of class 262144 is now that buffer alone, and none of the 200 records
of `L0` is in it. -/
theorem Revert_listed_256K_counterexample :
    ∃ (L0 : List Nat) (bp2 bp3 : ptr.BufPool),
      L0.length = 200
      ∧ ptr.IsList ptr.MemPool.heap (ptr.MemPool.Pool.get 262144) L0
      ∧ (ptr.NewBuf ptr.MemPool 262144).1.Revert ptr.MemPool.brk = some (bp2, none)
      ∧ bp2.Revert ptr.MemPool.brk = some (bp3, none)
      ∧ ptr.Reachable bp3
      ∧ bp3.Pool.get 262144 = some ptr.MemPool.brk
      ∧ (bp3.heap ptr.MemPool.brk).Next = some ptr.MemPool.brk
      ∧ ∀ a ∈ L0, ¬ ptr.InList bp3.heap (bp3.Pool.get 262144) a := by
  obtain ⟨L0, hlen, hL0, _⟩ := ptr.MemPool_list256K
  obtain ⟨bp2, bp3, h1, h2, h3, h4, h5, h6, h7, _, h9⟩ :=
    ptr.Revert_twice ptr.MemPool 262144 ptr.Linked_MemPool ptr.MemPool_PoolLock
      ((ptr.MemPool_table_keys 262144).mpr (by decide))
  have hr2 : ptr.Reachable bp2 :=
    ptr.ReachableBy.revert (ptr.ReachableBy.newBuf 262144 ptr.ReachableBy.init)
      (ptr.NewBuf_brk_lt ptr.MemPool 262144) True.intro h1
  have hlt2 : ptr.MemPool.brk < bp2.brk := by
    have hc := (hr2.linked.1 262144 ptr.MemPool.brk h4).1
    exact hc
  have hr3 : ptr.Reachable bp3 := ptr.ReachableBy.revert hr2 hlt2 True.intro h5
  exact ⟨L0, bp2, bp3, hlen, hL0, h1, h5, hr3, h6, h7,
    fun a ha => (h9 a (hL0.mem_inList a ha)).2.2⟩

/-- C19, amended: the class 262144 is never issued.  For every `N` the class
selected by `Alloc(N)` is not 262144; in every pool state a call of `Alloc`
leaves the entry of the table for 262144, and so its list, as it was; in
every reachable pool a buffer returned by `Alloc` does not have capacity
262144.  These hold for buffers passed by value and, in the last three
parts, for the pool with addresses.  There the list of class 262144 of the
initial pool is a list `L0` of 200 records, and in every pool reached by
`Alloc` calls, by callers that create and use buffers, and by `Revert` calls
on buffers that are not in the list of class 262144 at the time of the call,
the list of class 262144 ends with `L0`. -/
theorem class_262144_never_issued :
    (∀ N : Int, Alloc.index N ≠ some 262144)
    ∧ (∀ (bp bp1 : BufPool) (N : Int) (r : Option Buf × Option String),
        bp.Alloc N = some (bp1, r) →
        bp1.Pool 262144 = bp.Pool 262144 ∧ bp1.freeList 262144 = bp.freeList 262144)
    ∧ (∀ (bp bp1 : BufPool) (N : Int) (buf : Buf) (e : Option String), Reachable bp →
        bp.Alloc N = some (bp1, some buf, e) → buf.Capacity ≠ 262144)
    ∧ (MemPool.freeList 262144).length = 200
    ∧ (∀ (bp bp1 : ptr.BufPool) (N : Int) (r : Option Nat × Option String), ptr.Reachable bp →
        bp.Alloc N = some (bp1, r) →
        bp1.Pool 262144 = bp.Pool 262144
        ∧ ∀ l, ptr.IsList bp.heap (bp.Pool.get 262144) l →
            ptr.IsList bp1.heap (bp1.Pool.get 262144) l)
    ∧ (∀ (bp bp1 : ptr.BufPool) (N : Int) (a : Nat) (e : Option String), ptr.Reachable bp →
        bp.Alloc N = some (bp1, some a, e) → (bp1.heap a).Capacity ≠ 262144)
    ∧ ∃ L0 : List Nat, L0.length = 200
        ∧ ptr.IsList ptr.MemPool.heap (ptr.MemPool.Pool.get 262144) L0
        ∧ ∀ bp : ptr.BufPool, ptr.ReachableKeeping256K bp →
            ∃ pre : List Nat, ptr.IsList bp.heap (bp.Pool.get 262144) (pre ++ L0) := by
  have hidx : ∀ N : Int, Alloc.index N ≠ some 262144 := ptr.Alloc.index_ne_256K
  have hsame : ∀ (bp bp1 : BufPool) (N : Int) (r : Option Buf × Option String),
      bp.Alloc N = some (bp1, r) →
      bp1.Pool 262144 = bp.Pool 262144 ∧ bp1.freeList 262144 = bp.freeList 262144 := by
    intro bp bp1 N r h
    have h1 := Alloc_freeList_other h 262144 (hidx N)
    exact ⟨h1, freeList_congr h1⟩
  refine ⟨hidx, hsame, ?_, MemPool_freeList_length.2.2.2.1, ?_, ?_, ?_⟩
  · intro bp bp1 N buf e hr hal
    rcases Alloc_cases hal with ⟨_, _, h3⟩ | ⟨c, hc, _, ⟨_, _, h3⟩ | ⟨_, _, h3⟩ | ⟨t, hget, _, h3⟩⟩
    · simp at h3
    · simp at h3
    · simp only [Prod.mk.injEq, Option.some.injEq] at h3
      rw [h3.1]
      intro h
      exact hidx N (by rw [hc]; exact congrArg some h)
    · simp only [Prod.mk.injEq, Option.some.injEq] at h3
      have hcap : t.Capacity = c := by
        apply hr.capacity c t
        rw [freeList_of_get_some hget, Buf.toList_eq]
        exact List.mem_cons_self _ _
      rw [h3.1]
      intro h
      have h4 : c = 262144 := by rw [← hcap]; exact h
      exact hidx N (by rw [hc, h4])
  · intro bp bp1 N r hr hal
    exact ptr.Alloc_keeps_list (ptr.ReachableBy.linked hr) hal 262144 (hidx N)
  · intro bp bp1 N a e hr hal hcap
    have h := ptr.Alloc_returned_cap (ptr.ReachableBy.linked hr) hal
    rw [hcap] at h
    exact hidx N h
  · obtain ⟨L0, hlen, hL0, _⟩ := ptr.MemPool_list256K
    exact ⟨L0, hlen, hL0, fun bp hbp => ptr.ReachableKeeping256K.suffix hL0 hbp⟩

theorem class_262144_never_issued_witness :
    Alloc.index 262144 = some 655535
    ∧ (∀ (bp1 : BufPool) (buf : Buf) (e : Option String),
        MemPool.Alloc 262144 = some (bp1, some buf, e) → buf.Capacity ≠ 262144)
    ∧ ∃ L0 : List Nat, L0.length = 200
        ∧ ∃ pre : List Nat,
            ptr.IsList (ptr.NewBuf ptr.MemPool 4096).1.heap
              ((ptr.NewBuf ptr.MemPool 4096).1.Pool.get 262144) (pre ++ L0) :=
  ⟨by decide,
    fun bp1 buf e h => class_262144_never_issued.2.2.1 MemPool bp1 262144 buf e Reachable.init h,
    class_262144_never_issued.2.2.2.2.2.2.elim fun L0 hL0 =>
      ⟨L0, hL0.1, hL0.2.2 _ (ptr.ReachableBy.newBuf 4096 ptr.ReachableBy.init)⟩⟩

end mem
